import Mathlib

/-!
Verification development for the smali library: a reader/writer for Android
smali disassembly files.  The crate root (src/lib.rs) provides
`find_smali_files` and `parse_fragment`; the `types`, `smali_parse` and
`smali_write` modules referenced there are not part of the provided sources,
so the type model, the class parser and the class writer below are modelled
from the specification (marked in each doc comment).  Machine strings are
embedded as `String`/`List Char`; fallible operations return `Option` or
`Except`; a Rust panic is embedded as the `none` value of an outer `Option`.
-/

/-- Character class of Java identifier characters: letters, digits,
underscore and dollar sign (spec section 4.1). -/
def isJavaNameChar (c : Char) : Bool :=
  c.isAlpha || c.isDigit || c = '_' || c = '$'

/-- Character mapping used by the Java-to-JNI direction: dots become
slashes, everything else is unchanged. -/
def dotToSlash (c : Char) : Char := if c = '.' then '/' else c

/-- Character mapping used by the JNI-to-Java direction: slashes become
dots, everything else is unchanged. -/
def slashToDot (c : Char) : Char := if c = '/' then '.' else c

/-- Modelled from the spec: `ObjectIdentifier` from the missing `types`
module, "a fully-qualified class name, convertible between dotted Java
notation and slashed/JNI notation" (spec sections 2 and 3).  The stored form
is the slash-separated internal name, without the `L`/`;` wrapper. -/
structure ObjectIdentifier where
  ident : List Char
deriving DecidableEq

/-- Modelled from the spec: `from_java_type` accepts a dot-separated
fully-qualified name (spec section 4.1); dots are replaced by slashes. -/
def ObjectIdentifier.from_java_type (s : String) : ObjectIdentifier :=
  ⟨s.toList.map dotToSlash⟩

/-- Modelled from the spec: `as_java_type` produces the dotted Java form
(spec section 4.1). -/
def ObjectIdentifier.as_java_type (o : ObjectIdentifier) : String :=
  ⟨o.ident.map slashToDot⟩

/-- Modelled from the spec: `as_jni_type` produces the JNI form
`L<slashed-name>;` (spec section 4.1). -/
def ObjectIdentifier.as_jni_type (o : ObjectIdentifier) : String :=
  ⟨'L' :: o.ident ++ [';']⟩

/-- Modelled from the spec: `from_jni_type` accepts a string beginning with
`L`, ending with `;`, and strips the wrapper (spec section 4.1). -/
def ObjectIdentifier.from_jni_type (s : String) : ObjectIdentifier :=
  ⟨(s.toList.drop 1).dropLast⟩

/-- Well-formed Java class name per the claim: letters, digits, underscore,
dollar sign and dot separators. -/
def wfJavaName (s : String) : Bool :=
  s.toList.all (fun c => isJavaNameChar c || c = '.')

/-- Well-formed JNI object descriptor: `L`, then a slashed name over the
identifier alphabet, then `;`. -/
def wfJniDesc (s : String) : Bool :=
  match s.toList with
  | 'L' :: rest =>
    decide (rest ≠ []) && rest.getLast? == some ';' &&
      rest.dropLast.all (fun c => isJavaNameChar c || c = '/')
  | _ => false

theorem slashToDot_dotToSlash (c : Char) (hc : isJavaNameChar c || c = '.') :
    slashToDot (dotToSlash c) = c := by
  by_cases h : c = '.'
  · simp [dotToSlash, slashToDot, h]
  · have hslash : c ≠ '/' := by
      intro h2
      subst h2
      simp [isJavaNameChar, Char.isAlpha, Char.isUpper, Char.isLower, Char.isDigit] at hc
    simp [dotToSlash, slashToDot, h, hslash]

theorem string_mk_toList (s : String) : String.mk s.toList = s := rfl

/-- C2 (part): Java round trip at the character-list level. -/
theorem java_round_trip (n : String) (h : wfJavaName n = true) :
    (ObjectIdentifier.from_java_type n).as_java_type = n := by
  unfold ObjectIdentifier.from_java_type ObjectIdentifier.as_java_type
  have hchars : ∀ c ∈ n.toList, slashToDot (dotToSlash c) = c := by
    intro c hc
    apply slashToDot_dotToSlash
    exact List.all_eq_true.mp h c hc
  calc String.mk ((n.toList.map dotToSlash).map slashToDot)
      = String.mk (n.toList.map (fun c => slashToDot (dotToSlash c))) := by
        rw [List.map_map]; rfl
    _ = String.mk n.toList := by
        rw [List.map_congr_left hchars]; simp
    _ = n := rfl

/-- C2 (part): JNI round trip at the character-list level. -/
theorem jni_round_trip (d : String) (h : wfJniDesc d = true) :
    (ObjectIdentifier.from_jni_type d).as_jni_type = d := by
  unfold ObjectIdentifier.from_jni_type ObjectIdentifier.as_jni_type
  unfold wfJniDesc at h
  match hd : d.toList with
  | [] => rw [hd] at h; simp at h
  | 'L' :: rest =>
    rw [hd] at h
    simp only [Bool.and_eq_true, beq_iff_eq, decide_eq_true_eq] at h
    obtain ⟨⟨hne, hlast⟩, _⟩ := h
    have hrest : rest.dropLast ++ [';'] = rest := by
      have hgl : rest.getLast hne = ';' := by
        have := List.getLast?_eq_getLast rest hne
        rw [this] at hlast
        exact Option.some_injective _ hlast
      rw [← hgl]
      exact List.dropLast_append_getLast hne
    have : d = String.mk ('L' :: rest) := by
      conv_lhs => rw [← string_mk_toList d]
      rw [hd]
    rw [this]
    simp only [ObjectIdentifier.from_jni_type, ObjectIdentifier.as_jni_type,
      List.drop_succ_cons, List.drop_zero]
    simp only [List.cons_append, hrest]
  | c :: rest =>
    rw [hd] at h
    by_cases hc : c = 'L'
    · subst hc
      simp only [Bool.and_eq_true, beq_iff_eq, decide_eq_true_eq] at h
      obtain ⟨⟨hne, hlast⟩, _⟩ := h
      have hrest : rest.dropLast ++ [';'] = rest := by
        have hgl : rest.getLast hne = ';' := by
          have := List.getLast?_eq_getLast rest hne
          rw [this] at hlast
          exact Option.some_injective _ hlast
        rw [← hgl]
        exact List.dropLast_append_getLast hne
      have : d = String.mk ('L' :: rest) := by
        conv_lhs => rw [← string_mk_toList d]
        rw [hd]
      rw [this]
      simp only [ObjectIdentifier.from_jni_type, ObjectIdentifier.as_jni_type,
        List.drop_succ_cons, List.drop_zero]
      simp only [List.cons_append, hrest]
    · exact absurd h (by simp [hc])

/-- C2: for every well-formed Java class name `n`,
`ObjectIdentifier::from_java_type(n).as_java_type() == n`; for every
well-formed JNI descriptor `d`, `from_jni_type(d).as_jni_type() == d`; and
the two concrete example conversions from the spec hold. -/
theorem c2_object_identifier_round_trip :
    (∀ n : String, wfJavaName n = true →
      (ObjectIdentifier.from_java_type n).as_java_type = n) ∧
    (∀ d : String, wfJniDesc d = true →
      (ObjectIdentifier.from_jni_type d).as_jni_type = d) ∧
    (ObjectIdentifier.from_java_type "com.basic.Test").as_jni_type
      = "Lcom/basic/Test;" ∧
    (ObjectIdentifier.from_jni_type "Lcom/basic/Test;").as_java_type
      = "com.basic.Test" :=
  ⟨java_round_trip, jni_round_trip, by decide, by decide⟩

/-- C2 witness: the round trips evaluated at the concrete class name and
descriptor from the spec's examples. -/
theorem c2_object_identifier_round_trip_witness :
    ((ObjectIdentifier.from_java_type "com.basic.Test").as_java_type
        = "com.basic.Test") ∧
    ((ObjectIdentifier.from_jni_type "Lcom/basic/Test;").as_jni_type
        = "Lcom/basic/Test;") :=
  ⟨c2_object_identifier_round_trip.1 "com.basic.Test" (by decide),
   c2_object_identifier_round_trip.2.1 "Lcom/basic/Test;" (by decide)⟩

/-- Modelled from the spec: `TypeSignature` from the missing `types` module,
"a closed variant set: Void, Bool, Byte, Char, Short, Int, Long, Float,
Double, Object, Array with dimension count" (spec section 3). -/
inductive TypeSignature where
  | Void
  | Bool
  | Byte
  | Char
  | Short
  | Int
  | Long
  | Float
  | Double
  | Object (o : ObjectIdentifier)
  | Array (elem : TypeSignature) (dim : Nat)
deriving DecidableEq

/-- Wrapping step used when decoding a leading `[`: an array type gains one
dimension, any other type becomes a one-dimensional array (spec section 3:
nested arrays are represented by dimension count, not nesting). -/
def mkArray1 : TypeSignature → TypeSignature
  | TypeSignature.Array e k => TypeSignature.Array e (k + 1)
  | t => TypeSignature.Array t 1

/-- Modelled from the spec: the character sequence produced by
`TypeSignature::to_jni` (spec section 4.1): one fixed character per
primitive, `L<name>;` for objects, `dim`-many `[` prefixed for arrays. -/
def jniChars : TypeSignature → List Char
  | TypeSignature.Void => ['V']
  | TypeSignature.Bool => ['Z']
  | TypeSignature.Byte => ['B']
  | TypeSignature.Char => ['C']
  | TypeSignature.Short => ['S']
  | TypeSignature.Int => ['I']
  | TypeSignature.Long => ['J']
  | TypeSignature.Float => ['F']
  | TypeSignature.Double => ['D']
  | TypeSignature.Object o => 'L' :: o.ident ++ [';']
  | TypeSignature.Array t k => List.replicate k '[' ++ jniChars t

/-- Modelled from the spec: `TypeSignature::to_jni` (spec section 4.1). -/
def TypeSignature.to_jni (t : TypeSignature) : String := ⟨jniChars t⟩

/-- Modelled from the spec: the greedy single-type decode shared by
`TypeSignature::from_jni` and `MethodSignature::from_jni` (spec section
4.1): leading `[` characters give the array dimension, then a primitive
letter or an `L...;` object descriptor; any other leading character or an
unterminated object descriptor fails.  `decodePrim` is the
primitive-letter table. -/
def decodePrim (c : Char) : Option TypeSignature :=
  if c = 'V' then some TypeSignature.Void
  else if c = 'Z' then some TypeSignature.Bool
  else if c = 'B' then some TypeSignature.Byte
  else if c = 'C' then some TypeSignature.Char
  else if c = 'S' then some TypeSignature.Short
  else if c = 'I' then some TypeSignature.Int
  else if c = 'J' then some TypeSignature.Long
  else if c = 'F' then some TypeSignature.Float
  else if c = 'D' then some TypeSignature.Double
  else none

def decodeOne : List Char → Option (TypeSignature × List Char)
  | [] => none
  | c :: rest =>
    if c = '[' then (decodeOne rest).map (fun p => (mkArray1 p.1, p.2))
    else if c = 'L' then
      match rest.dropWhile (fun d => d ≠ ';') with
      | _ :: r => some (TypeSignature.Object ⟨rest.takeWhile (fun d => d ≠ ';')⟩, r)
      | [] => none
    else
      match decodePrim c with
      | some t => some (t, rest)
      | none => none

/-- Modelled from the spec: `TypeSignature::from_jni`, the inverse parser
requiring the whole input to be one descriptor (spec section 4.1). -/
def TypeSignature.from_jni (s : String) : Option TypeSignature :=
  match decodeOne s.toList with
  | some (t, []) => some t
  | _ => none

/-- Test whether a type signature is an array variant. -/
def isArr : TypeSignature → Bool
  | TypeSignature.Array _ _ => true
  | _ => false

/-- Test whether a type signature is a primitive or void variant. -/
def isPrim : TypeSignature → Bool
  | TypeSignature.Object _ => false
  | TypeSignature.Array _ _ => false
  | _ => true

/-- Characters allowed inside a stored object identifier so that the JNI
rendering stays decodable and token/line splitting is unambiguous. -/
def wfIdentChar (c : Char) : Bool := c ≠ ';' && c ≠ ' ' && c ≠ '\n'

/-- Well-formedness of a type signature: object names avoid the reserved
characters, arrays have dimension at least one and a non-array element
(spec section 3 invariants). -/
def wfType : TypeSignature → Bool
  | TypeSignature.Object o => o.ident.all wfIdentChar
  | TypeSignature.Array t k => decide (1 ≤ k) && !isArr t && wfType t
  | _ => true

theorem decodeOne_bracket (s : List Char) :
    decodeOne ('[' :: s) = (decodeOne s).map (fun p => (mkArray1 p.1, p.2)) := rfl

theorem decodeOne_obj (s : List Char) :
    decodeOne ('L' :: s)
      = (match s.dropWhile (fun d => d ≠ ';') with
        | _ :: r =>
          some (TypeSignature.Object ⟨s.takeWhile (fun d => d ≠ ';')⟩, r)
        | [] => none) := rfl

theorem mkArray1_of_not_arr (t : TypeSignature) (h : isArr t = false) :
    mkArray1 t = TypeSignature.Array t 1 := by
  cases t <;> simp [mkArray1, isArr] at h ⊢

theorem takeWhile_append_all {p : Char → Bool} {l : List Char} (x : Char)
    (r : List Char) (hl : ∀ c ∈ l, p c = true) (hx : p x = false) :
    (l ++ x :: r).takeWhile p = l := by
  induction l with
  | nil => simp [List.takeWhile, hx]
  | cons a l ih =>
    have ha : p a = true := hl a (by simp)
    simp only [List.cons_append, List.takeWhile_cons, ha, if_true]
    rw [ih (fun c hc => hl c (by simp [hc]))]

theorem dropWhile_append_all {p : Char → Bool} {l : List Char} (x : Char)
    (r : List Char) (hl : ∀ c ∈ l, p c = true) (hx : p x = false) :
    (l ++ x :: r).dropWhile p = x :: r := by
  induction l with
  | nil => simp [List.dropWhile, hx]
  | cons a l ih =>
    have ha : p a = true := hl a (by simp)
    simp only [List.cons_append, List.dropWhile_cons, ha, if_true]
    exact ih (fun c hc => hl c (by simp [hc]))

/-- Decoding a well-formed non-array rendered type consumes exactly its
characters. -/
theorem decodeOne_base (t : TypeSignature) (hna : isArr t = false)
    (hwf : wfType t = true) (rest : List Char) :
    decodeOne (jniChars t ++ rest) = some (t, rest) := by
  cases t with
  | Object o =>
    have hall : ∀ c ∈ o.ident, (fun d => decide (d ≠ ';')) c = true := by
      intro c hc
      have := List.all_eq_true.mp hwf c hc
      simp only [wfIdentChar, Bool.and_eq_true, decide_eq_true_eq] at this
      simp [this.1.1]
    have hsemi : (fun d => decide (d ≠ ';')) ';' = false := by simp
    have hs : jniChars (TypeSignature.Object o) ++ rest
        = 'L' :: (o.ident ++ ';' :: rest) := by
      simp [jniChars]
    rw [hs, decodeOne_obj,
      dropWhile_append_all ';' rest hall hsemi,
      takeWhile_append_all ';' rest hall hsemi]
  | Array e k => simp [isArr] at hna
  | Void => rfl
  | Bool => rfl
  | Byte => rfl
  | Char => rfl
  | Short => rfl
  | Int => rfl
  | Long => rfl
  | Float => rfl
  | Double => rfl

/-- Decoding `k+1` leading brackets before a decodable element yields the
array of dimension `k+1`. -/
theorem decodeOne_brackets (e : TypeSignature) (hna : isArr e = false)
    (tail rest : List Char) (hdec : decodeOne (tail ++ rest) = some (e, rest)) :
    ∀ k : Nat,
      decodeOne (List.replicate (k + 1) '[' ++ (tail ++ rest))
        = some (TypeSignature.Array e (k + 1), rest) := by
  intro k
  induction k with
  | zero =>
    rw [List.replicate_one, List.singleton_append, decodeOne_bracket, hdec]
    simp [mkArray1_of_not_arr e hna]
  | succ k ih =>
    rw [List.replicate_succ, List.cons_append, decodeOne_bracket, ih]
    simp [mkArray1]

/-- Decoding the rendering of any well-formed type consumes exactly its
characters and recovers the type. -/
theorem decodeOne_jniChars (t : TypeSignature) (hwf : wfType t = true)
    (rest : List Char) : decodeOne (jniChars t ++ rest) = some (t, rest) := by
  cases t with
  | Array e k =>
    simp only [wfType, Bool.and_eq_true, Bool.not_eq_true',
      decide_eq_true_eq] at hwf
    obtain ⟨⟨hk, hna⟩, hewf⟩ := hwf
    obtain ⟨k2, rfl⟩ : ∃ k2, k = k2 + 1 := ⟨k - 1, by omega⟩
    have := decodeOne_brackets e hna (jniChars e) rest
      (decodeOne_base e hna hewf rest) k2
    show decodeOne ((List.replicate (k2 + 1) '[' ++ jniChars e) ++ rest) = _
    rw [List.append_assoc]
    exact this
  | Object o => exact decodeOne_base (TypeSignature.Object o) (by rfl) hwf rest
  | Void => rfl
  | Bool => rfl
  | Byte => rfl
  | Char => rfl
  | Short => rfl
  | Int => rfl
  | Long => rfl
  | Float => rfl
  | Double => rfl

/-- Round trip of `to_jni` and `from_jni` for well-formed types. -/
theorem from_jni_to_jni (t : TypeSignature) (hwf : wfType t = true) :
    TypeSignature.from_jni (TypeSignature.to_jni t) = some t := by
  unfold TypeSignature.from_jni TypeSignature.to_jni
  have h := decodeOne_jniChars t hwf []
  rw [List.append_nil] at h
  have hchars : (String.mk (jniChars t)).toList = jniChars t := rfl
  rw [hchars, h]

/-- C3: the JNI encoding of `TypeSignature` is a bijection: each
primitive/void variant renders to exactly one of the nine descriptor
characters and decodes back to itself, and `Array(t, k)` with `k ≥ 1` and a
well-formed non-array element renders to `k` brackets before `t`'s encoding
and decodes back to the same element and dimension. -/
theorem c3_type_descriptor_bijection :
    (∀ t : TypeSignature, isPrim t = true →
      ∃ c, c ∈ ['V', 'Z', 'B', 'C', 'S', 'I', 'J', 'F', 'D'] ∧
        jniChars t = [c] ∧ TypeSignature.from_jni (String.mk [c]) = some t) ∧
    (∀ (t : TypeSignature) (k : Nat), 1 ≤ k → isArr t = false →
      wfType t = true →
      jniChars (TypeSignature.Array t k) = List.replicate k '[' ++ jniChars t ∧
        TypeSignature.from_jni
            (String.mk (List.replicate k '[' ++ jniChars t))
          = some (TypeSignature.Array t k)) := by
  constructor
  · intro t hp
    cases t with
    | Object o => simp [isPrim] at hp
    | Array e k => simp [isPrim] at hp
    | Void => exact ⟨'V', by decide, rfl, rfl⟩
    | Bool => exact ⟨'Z', by decide, rfl, rfl⟩
    | Byte => exact ⟨'B', by decide, rfl, rfl⟩
    | Char => exact ⟨'C', by decide, rfl, rfl⟩
    | Short => exact ⟨'S', by decide, rfl, rfl⟩
    | Int => exact ⟨'I', by decide, rfl, rfl⟩
    | Long => exact ⟨'J', by decide, rfl, rfl⟩
    | Float => exact ⟨'F', by decide, rfl, rfl⟩
    | Double => exact ⟨'D', by decide, rfl, rfl⟩
  · intro t k hk hna hwf
    refine ⟨rfl, ?_⟩
    have harr : wfType (TypeSignature.Array t k) = true := by
      simp [wfType, hk, hna, hwf]
    have := from_jni_to_jni (TypeSignature.Array t k) harr
    simpa [TypeSignature.to_jni, jniChars] using this

/-- C3 witness: the bijection evaluated at the primitive `Int` and at the
one-dimensional integer array. -/
theorem c3_type_descriptor_bijection_witness :
    (∃ c, c ∈ ['V', 'Z', 'B', 'C', 'S', 'I', 'J', 'F', 'D'] ∧
      jniChars TypeSignature.Int = [c] ∧
      TypeSignature.from_jni (String.mk [c]) = some TypeSignature.Int) ∧
    (jniChars (TypeSignature.Array TypeSignature.Int 1)
        = List.replicate 1 '[' ++ jniChars TypeSignature.Int ∧
      TypeSignature.from_jni
          (String.mk (List.replicate 1 '[' ++ jniChars TypeSignature.Int))
        = some (TypeSignature.Array TypeSignature.Int 1)) :=
  ⟨c3_type_descriptor_bijection.1 TypeSignature.Int (by decide),
   c3_type_descriptor_bijection.2 TypeSignature.Int 1 (by decide) (by decide)
     (by decide)⟩

/-- Characters reachable in a decode result are characters of the input. -/
theorem decodeOne_subset :
    ∀ (s : List Char) (t : TypeSignature) (r : List Char),
      decodeOne s = some (t, r) → ∀ a ∈ r, a ∈ s := by
  intro s
  induction s with
  | nil => intro t r h; simp [decodeOne] at h
  | cons c rest ih =>
    intro t r h a ha
    simp only [decodeOne] at h
    split_ifs at h with h1 h2
    · obtain ⟨p, hp, heq⟩ := Option.map_eq_some'.mp h
      obtain ⟨t2, r2⟩ := p
      cases heq
      exact List.mem_cons_of_mem c (ih t2 r2 hp a ha)
    · split at h
      next head r2 hdrop =>
        cases h
        have hsub : a ∈ rest.dropWhile (fun d => d ≠ ';') := by
          rw [hdrop]; exact List.mem_cons_of_mem head ha
        exact List.mem_cons_of_mem c
          ((List.dropWhile_suffix (fun d => d ≠ ';')).subset hsub)
      next hdrop => cases h
    · split at h
      next t2 hprim => cases h; exact List.mem_cons_of_mem c ha
      next hprim => cases h

/-- Modelled from the spec: the fuel-indexed scan of the parenthesized
parameter segment of a JNI method descriptor (spec section 4.1): greedy
single-type decodes until the closing parenthesis. -/
def parseParamsAux : Nat → List Char → Option (List TypeSignature × List Char)
  | _, [] => none
  | 0, _ :: _ => none
  | fuel + 1, c :: rest =>
    if c = ')' then some ([], rest)
    else
      match decodeOne (c :: rest) with
      | some (t, r) =>
        match parseParamsAux fuel r with
        | some (ts, r2) => some (t :: ts, r2)
        | none => none
      | none => none

/-- Parameter-segment scan with enough fuel for any input. -/
def parseParams (s : List Char) : Option (List TypeSignature × List Char) :=
  parseParamsAux s.length s

/-- Modelled from the spec: `MethodSignature`, "an ordered sequence of
parameter TypeSignatures plus one return TypeSignature" (spec section 3). -/
structure MethodSignature where
  args : List TypeSignature
  return_type : TypeSignature
deriving DecidableEq

/-- Modelled from the spec: the characters of the JNI method descriptor
`(<params>)<return>` (spec sections 3 and 4.1). -/
def methodSigChars (m : MethodSignature) : List Char :=
  '(' :: (m.args.map jniChars).flatten ++ ')' :: jniChars m.return_type

/-- Modelled from the spec: serialization of a method signature. -/
def MethodSignature.to_jni (m : MethodSignature) : String := ⟨methodSigChars m⟩

/-- Modelled from the spec: `MethodSignature::from_jni` at character level
(spec section 4.1): parse `(<zero or more type descriptors>)`, then decode
the remainder as exactly one type with no trailing characters. -/
def fromJniChars (s : List Char) : Option MethodSignature :=
  match s with
  | [] => none
  | c :: rest =>
    if c = '(' then
      match parseParams rest with
      | some (ts, r) =>
        match decodeOne r with
        | some (t, []) => some ⟨ts, t⟩
        | _ => none
      | none => none
    else none

/-- Modelled from the spec: `MethodSignature::from_jni` (spec section
4.1). -/
def MethodSignature.from_jni (s : String) : Option MethodSignature :=
  fromJniChars s.toList

/-- Without a closing parenthesis the parameter scan fails, at any fuel. -/
theorem parseParamsAux_no_close :
    ∀ (fuel : Nat) (s : List Char), ')' ∉ s → parseParamsAux fuel s = none := by
  intro fuel
  induction fuel with
  | zero => intro s h; cases s <;> rfl
  | succ fuel ih =>
    intro s h
    cases s with
    | nil => rfl
    | cons c rest =>
      have hc : ¬(c = ')') := by
        intro hc; exact h (hc ▸ List.mem_cons_self c rest)
      simp only [parseParamsAux, if_neg hc]
      cases hdec : decodeOne (c :: rest) with
      | none => rfl
      | some p =>
        obtain ⟨t, r⟩ := p
        have hr : ')' ∉ r := by
          intro hmem
          exact h (decodeOne_subset (c :: rest) t r hdec ')' hmem)
        simp [ih r hr]

/-- C4: `MethodSignature::from_jni("([I)V")` succeeds with parameter list
`[Array(Int, 1)]` and return type `Void`; `from_jni` fails when the input
has no closing parenthesis, and fails when the remainder after the
parameter segment does not decode to exactly one type with no trailing
characters. -/
theorem c4_method_descriptor :
    MethodSignature.from_jni "([I)V"
      = some ⟨[TypeSignature.Array TypeSignature.Int 1], TypeSignature.Void⟩ ∧
    (∀ s : String, ')' ∉ s.toList → MethodSignature.from_jni s = none) ∧
    (∀ (s : String) (rest : List Char) (ts : List TypeSignature)
        (r : List Char),
      s.toList = '(' :: rest → parseParams rest = some (ts, r) →
      (∀ t : TypeSignature, decodeOne r ≠ some (t, [])) →
      MethodSignature.from_jni s = none) := by
  refine ⟨by decide, ?_, ?_⟩
  · intro s h
    unfold MethodSignature.from_jni
    cases hs : s.toList with
    | nil => rfl
    | cons c rest =>
      rw [hs] at h
      simp only [fromJniChars]
      by_cases hc : c = '('
      · subst hc
        have hrest : ')' ∉ rest := fun hm => h (List.mem_cons_of_mem _ hm)
        rw [if_pos rfl,
          show parseParams rest = none from
            parseParamsAux_no_close rest.length rest hrest]
      · rw [if_neg hc]
  · intro s rest ts r hs hp hdec
    unfold MethodSignature.from_jni
    rw [hs]
    simp only [fromJniChars, if_pos rfl]
    rw [hp]
    cases hone : decodeOne r with
    | none => simp [hone]
    | some p =>
      obtain ⟨t, r2⟩ := p
      cases r2 with
      | nil => exact absurd hone (hdec t)
      | cons d r3 => simp [hone]

/-- C4 witness: the failure clauses evaluated at an unterminated descriptor
and at a descriptor with a trailing character after the return type. -/
theorem c4_method_descriptor_witness :
    MethodSignature.from_jni "([I" = none ∧
    MethodSignature.from_jni "([I)VV" = none := by
  constructor
  · exact c4_method_descriptor.2.1 "([I" (by decide)
  · refine c4_method_descriptor.2.2 "([I)VV"
      ['[', 'I', ')', 'V', 'V'] [TypeSignature.Array TypeSignature.Int 1]
      ['V', 'V'] (by decide) (by decide) ?_
    intro t h
    have h2 : decodeOne ['V', 'V'] = some (TypeSignature.Void, ['V']) := rfl
    rw [h2] at h
    simp at h

/-- Decimal digit characters, used when rendering register numbers and
literals. -/
def digitCh : Nat → Char
  | 0 => '0'
  | 1 => '1'
  | 2 => '2'
  | 3 => '3'
  | 4 => '4'
  | 5 => '5'
  | 6 => '6'
  | 7 => '7'
  | 8 => '8'
  | _ => '9'

/-- Decimal digit value of a character, used when parsing numbers. -/
def digitVal (c : Char) : Option Nat :=
  if c = '0' then some 0
  else if c = '1' then some 1
  else if c = '2' then some 2
  else if c = '3' then some 3
  else if c = '4' then some 4
  else if c = '5' then some 5
  else if c = '6' then some 6
  else if c = '7' then some 7
  else if c = '8' then some 8
  else if c = '9' then some 9
  else none

/-- Fuel-indexed most-significant-first decimal rendering. -/
def natDigsAux : Nat → Nat → List Char
  | 0, _ => []
  | fuel + 1, n =>
    if n < 10 then [digitCh n]
    else natDigsAux fuel (n / 10) ++ [digitCh (n % 10)]

/-- Decimal rendering of a natural number. -/
def natChars (n : Nat) : List Char := natDigsAux (n + 1) n

/-- Accumulator-style decimal reader. -/
def readNatAux : List Char → Nat → Option Nat
  | [], acc => some acc
  | c :: r, acc =>
    match digitVal c with
    | some d => readNatAux r (10 * acc + d)
    | none => none

/-- Decimal parser: at least one digit, digits only. -/
def readNat (s : List Char) : Option Nat :=
  match s with
  | [] => none
  | _ :: _ => readNatAux s 0

theorem digitVal_digitCh : ∀ d : Nat, d < 10 → digitVal (digitCh d) = some d := by
  decide

theorem digitVal_isSome_natDigsAux :
    ∀ (fuel n : Nat) (c : Char), c ∈ natDigsAux fuel n →
      (digitVal c).isSome = true := by
  intro fuel
  induction fuel with
  | zero => intro n c h; simp [natDigsAux] at h
  | succ fuel ih =>
    intro n c h
    simp only [natDigsAux] at h
    split_ifs at h with h1
    · simp only [List.mem_singleton] at h
      subst h
      rw [digitVal_digitCh n h1]
      rfl
    · rcases List.mem_append.mp h with h2 | h2
      · exact ih (n / 10) c h2
      · simp only [List.mem_singleton] at h2
        subst h2
        rw [digitVal_digitCh (n % 10) (Nat.mod_lt n (by omega))]
        rfl

theorem natDigsAux_ne_nil (fuel n : Nat) : natDigsAux (fuel + 1) n ≠ [] := by
  simp only [natDigsAux]
  split_ifs <;> simp

theorem readNatAux_natDigsAux :
    ∀ (fuel n : Nat), n < fuel → ∀ (acc : Nat) (rest : List Char),
      readNatAux (natDigsAux fuel n ++ rest) acc
        = readNatAux rest (acc * 10 ^ (natDigsAux fuel n).length + n) := by
  intro fuel
  induction fuel with
  | zero => intro n h; omega
  | succ fuel ih =>
    intro n hn acc rest
    by_cases h1 : n < 10
    · simp only [natDigsAux, if_pos h1, List.singleton_append,
        List.length_singleton, readNatAux, digitVal_digitCh n h1]
      congr 1
      ring
    · have hdivlt : n / 10 < n := Nat.div_lt_self (by omega) (by omega)
      have hfuel : n / 10 < fuel := by omega
      simp only [natDigsAux, if_neg h1, List.append_assoc,
        List.singleton_append, List.length_append, List.length_singleton]
      rw [ih (n / 10) hfuel acc (digitCh (n % 10) :: rest)]
      simp only [readNatAux, digitVal_digitCh (n % 10) (Nat.mod_lt n (by omega))]
      congr 1
      have hmod : 10 * (n / 10) + n % 10 = n := by omega
      rw [pow_succ]
      ring_nf
      omega

theorem readNat_natChars (n : Nat) : readNat (natChars n) = some n := by
  have hmain := readNatAux_natDigsAux (n + 1) n (by omega) 0 []
  rw [List.append_nil] at hmain
  cases hc : natChars n with
  | nil => exact absurd hc (natDigsAux_ne_nil n n)
  | cons c r =>
    have h2 : readNat (c :: r) = readNatAux (c :: r) 0 := rfl
    rw [h2, ← hc]
    show readNatAux (natDigsAux (n + 1) n) 0 = some n
    rw [hmain]
    simp [readNatAux]

/-- A line is the space-separated join of its tokens (spec section 4.2:
line-oriented tokenization). -/
def lineOfTokens (ts : List (List Char)) : List Char := List.intercalate [' '] ts

/-- Tokenization of one line by splitting on spaces. -/
def tokensOfLine (l : List Char) : List (List Char) := l.splitOn ' '

/-- A text is the newline-separated join of its lines. -/
def textOfLines (ls : List (List Char)) : List Char := List.intercalate ['\n'] ls

/-- Splitting a text into its lines. -/
def linesOfText (s : List Char) : List (List Char) := s.splitOn '\n'

/-- Blank or comment line: only spaces, or first non-space character is
`#` (spec section 4.2: such lines are skippable noise). -/
def isNoiseLine (l : List Char) : Bool :=
  match l.dropWhile (fun c => c = ' ') with
  | [] => true
  | c :: _ => c = '#'

def kwClass : List Char := ['.', 'c', 'l', 'a', 's', 's']

def kwSuper : List Char := ['.', 's', 'u', 'p', 'e', 'r']

def kwImplements : List Char :=
  ['.', 'i', 'm', 'p', 'l', 'e', 'm', 'e', 'n', 't', 's']

def kwField : List Char := ['.', 'f', 'i', 'e', 'l', 'd']

def kwMethod : List Char := ['.', 'm', 'e', 't', 'h', 'o', 'd']

def kwLocals : List Char := ['.', 'l', 'o', 'c', 'a', 'l', 's']

def kwEnd : List Char := ['.', 'e', 'n', 'd']

def kwMethodWord : List Char := ['m', 'e', 't', 'h', 'o', 'd']

def kwReturnVoid : List Char :=
  ['r', 'e', 't', 'u', 'r', 'n', '-', 'v', 'o', 'i', 'd']

def kwMove : List Char := ['m', 'o', 'v', 'e']

def kwConst : List Char := ['c', 'o', 'n', 's', 't']

def kwGoto : List Char := ['g', 'o', 't', 'o']

/-- Modelled from the spec: the access-flag set of classes, fields and
methods (spec section 3): public, private, protected, static, final,
abstract, interface, enum, annotation, synthetic.  The annotation flag is
named `Annot` here. -/
inductive Modifier where
  | Public
  | Private
  | Protected
  | Static
  | Final
  | Abstract
  | Interface
  | Enum
  | Annot
  | Synthetic
deriving DecidableEq

/-- Rendering of one access flag keyword. -/
def modChars : Modifier → List Char
  | Modifier.Public => ['p', 'u', 'b', 'l', 'i', 'c']
  | Modifier.Private => ['p', 'r', 'i', 'v', 'a', 't', 'e']
  | Modifier.Protected => ['p', 'r', 'o', 't', 'e', 'c', 't', 'e', 'd']
  | Modifier.Static => ['s', 't', 'a', 't', 'i', 'c']
  | Modifier.Final => ['f', 'i', 'n', 'a', 'l']
  | Modifier.Abstract => ['a', 'b', 's', 't', 'r', 'a', 'c', 't']
  | Modifier.Interface => ['i', 'n', 't', 'e', 'r', 'f', 'a', 'c', 'e']
  | Modifier.Enum => ['e', 'n', 'u', 'm']
  | Modifier.Annot =>
    ['a', 'n', 'n', 'o', 't', 'a', 't', 'i', 'o', 'n']
  | Modifier.Synthetic => ['s', 'y', 'n', 't', 'h', 'e', 't', 'i', 'c']

/-- Recognition of one access flag keyword. -/
def modOfTok (t : List Char) : Option Modifier :=
  if t = modChars Modifier.Public then some Modifier.Public
  else if t = modChars Modifier.Private then some Modifier.Private
  else if t = modChars Modifier.Protected then some Modifier.Protected
  else if t = modChars Modifier.Static then some Modifier.Static
  else if t = modChars Modifier.Final then some Modifier.Final
  else if t = modChars Modifier.Abstract then some Modifier.Abstract
  else if t = modChars Modifier.Interface then some Modifier.Interface
  else if t = modChars Modifier.Enum then some Modifier.Enum
  else if t = modChars Modifier.Annot then some Modifier.Annot
  else if t = modChars Modifier.Synthetic then some Modifier.Synthetic
  else none

/-- Modelled from the spec: register operands `v<N>` / `p<N>` (spec
sections 3 and 4.2). -/
inductive Reg where
  | v (n : Nat)
  | p (n : Nat)
deriving DecidableEq

/-- Rendering of a register operand. -/
def regTok : Reg → List Char
  | Reg.v n => 'v' :: natChars n
  | Reg.p n => 'p' :: natChars n

/-- Parsing of a register operand. -/
def parseRegTok (t : List Char) : Option Reg :=
  match t with
  | [] => none
  | c :: rest =>
    if c = 'v' then (readNat rest).map Reg.v
    else if c = 'p' then (readNat rest).map Reg.p
    else none

/-- Modelled from the spec: a representative closed subset of the
instruction model (spec section 3): a two-register move, a constant load
with literal, an unconditional branch to a label, a label declaration, and
a no-operand return. -/
inductive SmaliInstruction where
  | ReturnVoid
  | Move (dst src : Reg)
  | Const (dst : Reg) (lit : Nat)
  | Goto (label : List Char)
  | LabelDef (name : List Char)
deriving DecidableEq

/-- Rendering of one instruction as its token list (spec section 4.3). -/
def instrTokens : SmaliInstruction → List (List Char)
  | SmaliInstruction.ReturnVoid => [kwReturnVoid]
  | SmaliInstruction.Move d s => [kwMove, regTok d ++ [','], regTok s]
  | SmaliInstruction.Const d n => [kwConst, regTok d ++ [','], natChars n]
  | SmaliInstruction.Goto l => [kwGoto, ':' :: l]
  | SmaliInstruction.LabelDef l => [':' :: l]

/-- Label names stay inside one space-free, newline-free token. -/
def wfLabel (n : List Char) : Bool :=
  n.all (fun c => c ≠ ' ' && c ≠ '\n')

/-- Drop a trailing comma from an operand token. -/
def dropComma (t : List Char) : Option (List Char) :=
  if t.getLast? == some ',' then some t.dropLast else none

/-- Parsing of a label token `:name`. -/
def parseLabelTok (t : List Char) : Option (List Char) :=
  match t with
  | [] => none
  | c :: rest => if c = ':' && wfLabel rest then some rest else none

/-- Parsing of one instruction from its token list (spec section 4.2:
mnemonic followed by its operand list). -/
def parseInstrToks (ts : List (List Char)) : Option SmaliInstruction :=
  match ts with
  | [t] =>
    if t = kwReturnVoid then some SmaliInstruction.ReturnVoid
    else (parseLabelTok t).map SmaliInstruction.LabelDef
  | [t1, t2] =>
    if t1 = kwGoto then (parseLabelTok t2).map SmaliInstruction.Goto
    else none
  | [t1, t2, t3] =>
    if t1 = kwMove then
      match dropComma t2 with
      | some t2b =>
        match parseRegTok t2b, parseRegTok t3 with
        | some d, some s => some (SmaliInstruction.Move d s)
        | _, _ => none
      | none => none
    else if t1 = kwConst then
      match dropComma t2 with
      | some t2b =>
        match parseRegTok t2b, readNat t3 with
        | some d, some n => some (SmaliInstruction.Const d n)
        | _, _ => none
      | none => none
    else none
  | _ => none

/-- Field names stay inside one token and leave the `:` separator free. -/
def wfFieldName (n : List Char) : Bool :=
  n.all (fun c => c ≠ ':' && c ≠ ' ' && c ≠ '\n')

/-- Method names stay inside one token and leave `(` free for the
descriptor. -/
def wfMethodName (n : List Char) : Bool :=
  n.all (fun c => c ≠ '(' && c ≠ ' ' && c ≠ '\n')

/-- Well-formedness of a whole method signature. -/
def wfMethodSig (m : MethodSignature) : Bool :=
  m.args.all wfType && wfType m.return_type

/-- Modelled from the spec: a field declaration of the class model, with
access flags, name and type (spec section 3; constant initializers and
annotations are outside the claims' scope). -/
structure SmaliField where
  modifiers : List Modifier
  name : List Char
  sig : TypeSignature
deriving DecidableEq

/-- Modelled from the spec: a method declaration of the class model, with
access flags, name, signature, declared register count and instruction body
(spec section 3; try/catch ranges and annotations are outside the claims'
scope). -/
structure SmaliMethod where
  modifiers : List Modifier
  name : List Char
  sig : MethodSignature
  locals : Nat
  instructions : List SmaliInstruction
deriving DecidableEq

/-- Modelled from the spec: `SmaliClass`, the aggregate root with access
flags, class identifier, optional superclass, interfaces, fields and
methods in declaration order (spec section 3; source-file and annotations
are outside the claims' scope). -/
structure SmaliClass where
  modifiers : List Modifier
  name : ObjectIdentifier
  super : Option ObjectIdentifier
  implements : List ObjectIdentifier
  fields : List SmaliField
  methods : List SmaliMethod
deriving DecidableEq

/-- Modelled from the spec: the error type of the library, "a
parse/validation error carrying a human-readable detail string" (spec
section 7, and the `SmaliError { details }` uses in src/lib.rs). -/
structure SmaliError where
  details : String
deriving DecidableEq

/-- Well-formedness of one instruction: label operands are token-safe. -/
def wfInstr : SmaliInstruction → Bool
  | SmaliInstruction.Goto l => wfLabel l
  | SmaliInstruction.LabelDef l => wfLabel l
  | _ => true

/-- Well-formedness of a stored object identifier. -/
def wfIdent (o : ObjectIdentifier) : Bool := o.ident.all wfIdentChar

/-- Well-formedness of a field declaration. -/
def wfField (f : SmaliField) : Bool := wfFieldName f.name && wfType f.sig

/-- Well-formedness of a method declaration. -/
def wfMethod (m : SmaliMethod) : Bool :=
  wfMethodName m.name && wfMethodSig m.sig && m.instructions.all wfInstr

/-- Well-formedness of a whole class value: every stored name is
token-safe, every type is well-formed. -/
def wfClass (c : SmaliClass) : Bool :=
  wfIdent c.name &&
    (match c.super with
     | some s => wfIdent s
     | none => true) &&
    c.implements.all wfIdent && c.fields.all wfField && c.methods.all wfMethod

/-- JNI object token `L<name>;`. -/
def jniTok (o : ObjectIdentifier) : List Char := 'L' :: o.ident ++ [';']

/-- Writer: the `.class` header line (spec section 4.3). -/
def classHeaderLine (c : SmaliClass) : List Char :=
  lineOfTokens (kwClass :: c.modifiers.map modChars ++ [jniTok c.name])

/-- Writer: the optional `.super` line. -/
def superLines (c : SmaliClass) : List (List Char) :=
  match c.super with
  | none => []
  | some s => [lineOfTokens [kwSuper, jniTok s]]

/-- Writer: one `.implements` line. -/
def implLine (o : ObjectIdentifier) : List Char :=
  lineOfTokens [kwImplements, jniTok o]

/-- Writer: one `.field` line. -/
def fieldLine (f : SmaliField) : List Char :=
  lineOfTokens
    (kwField :: f.modifiers.map modChars ++ [f.name ++ ':' :: jniChars f.sig])

/-- Writer: the `.method` header line. -/
def methodHeaderLine (m : SmaliMethod) : List Char :=
  lineOfTokens
    (kwMethod :: m.modifiers.map modChars ++ [m.name ++ methodSigChars m.sig])

/-- Writer: the `.locals` line. -/
def localsLine (m : SmaliMethod) : List Char :=
  lineOfTokens [kwLocals, natChars m.locals]

/-- Writer: one instruction line. -/
def instrLine (i : SmaliInstruction) : List Char := lineOfTokens (instrTokens i)

/-- Writer: the `.end method` line. -/
def endMethodLine : List Char := lineOfTokens [kwEnd, kwMethodWord]

/-- Writer: all lines of one method block. -/
def methodLines (m : SmaliMethod) : List (List Char) :=
  methodHeaderLine m :: localsLine m
    :: (m.instructions.map instrLine ++ [endMethodLine])

/-- Writer: all lines of a class, in the canonical order of spec section
4.3: header, superclass, interfaces, fields, methods. -/
def classLines (c : SmaliClass) : List (List Char) :=
  classHeaderLine c
    :: (superLines c ++ c.implements.map implLine ++ c.fields.map fieldLine
      ++ (c.methods.map methodLines).flatten)

/-- Modelled from the spec: `SmaliClass::to_smali`, the class writer (spec
sections 4.3 and 6). -/
def to_smali (c : SmaliClass) : String := ⟨textOfLines (classLines c)⟩

/-- Parser: a maximal run of access-flag tokens. -/
def parseModsAux : List (List Char) → List Modifier × List (List Char)
  | [] => ([], [])
  | t :: rest =>
    match modOfTok t with
    | some m =>
      match parseModsAux rest with
      | (ms, r) => (m :: ms, r)
    | none => ([], t :: rest)

/-- Parser: a JNI object token `L<name>;`, validating the identifier
alphabet. -/
def parseJniTok (t : List Char) : Option ObjectIdentifier :=
  match t with
  | [] => none
  | c :: rest =>
    if c = 'L' && rest.getLast? == some ';' && rest.dropLast.all wfIdentChar
    then some ⟨rest.dropLast⟩
    else none

/-- Parser: a field token `name:type`. -/
def parseFieldTok (t : List Char) : Option (List Char × TypeSignature) :=
  match t.dropWhile (fun c => c ≠ ':') with
  | _ :: tyChars =>
    if wfFieldName (t.takeWhile (fun c => c ≠ ':')) then
      match decodeOne tyChars with
      | some (ty, []) =>
        if wfType ty then some (t.takeWhile (fun c => c ≠ ':'), ty) else none
      | _ => none
    else none
  | [] => none

/-- Parser: a method token `name(<params>)<return>`. -/
def parseMethodTok (t : List Char) : Option (List Char × MethodSignature) :=
  if wfMethodName (t.takeWhile (fun c => c ≠ '(')) then
    match fromJniChars (t.dropWhile (fun c => c ≠ '(')) with
    | some m =>
      if wfMethodSig m then some (t.takeWhile (fun c => c ≠ '('), m) else none
    | none => none
  else none

/-- Parser: the optional `.super` line. -/
def parseSuper :
    List (List Char) → Option (Option ObjectIdentifier × List (List Char))
  | [] => some (none, [])
  | l :: rest =>
    match tokensOfLine l with
    | t :: args =>
      if t = kwSuper then
        match args with
        | [tok] =>
          match parseJniTok tok with
          | some o => some (some o, rest)
          | none => none
        | _ => none
      else some (none, l :: rest)
    | [] => some (none, l :: rest)

/-- Parser: a maximal run of `.implements` lines. -/
def parseImplsAux :
    List (List Char) → Option (List ObjectIdentifier × List (List Char))
  | [] => some ([], [])
  | l :: rest =>
    match tokensOfLine l with
    | t :: args =>
      if t = kwImplements then
        match args with
        | [tok] =>
          match parseJniTok tok with
          | some o =>
            match parseImplsAux rest with
            | some (os, r) => some (o :: os, r)
            | none => none
          | none => none
        | _ => none
      else some ([], l :: rest)
    | [] => some ([], l :: rest)

/-- Parser: a maximal run of `.field` lines. -/
def parseFieldsAux :
    List (List Char) → Option (List SmaliField × List (List Char))
  | [] => some ([], [])
  | l :: rest =>
    match tokensOfLine l with
    | t :: args =>
      if t = kwField then
        match parseModsAux args with
        | (ms, [tok]) =>
          match parseFieldTok tok with
          | some (name, ty) =>
            match parseFieldsAux rest with
            | some (fs, r) => some (⟨ms, name, ty⟩ :: fs, r)
            | none => none
          | none => none
        | _ => none
      else some ([], l :: rest)
    | [] => some ([], l :: rest)

/-- Parser: instruction lines of a method body up to `.end method`. -/
def parseInstrLines :
    List (List Char) → Option (List SmaliInstruction × List (List Char))
  | [] => none
  | l :: rest =>
    if l = endMethodLine then some ([], rest)
    else
      match parseInstrToks (tokensOfLine l) with
      | some i =>
        match parseInstrLines rest with
        | some (is, r) => some (i :: is, r)
        | none => none
      | none => none

/-- Parser: one `.method ... .end method` block. -/
def parseMethodBlock :
    List (List Char) → Option (SmaliMethod × List (List Char))
  | [] => none
  | hl :: rest =>
    match tokensOfLine hl with
    | t :: args =>
      if t = kwMethod then
        match parseModsAux args with
        | (ms, [tok]) =>
          match parseMethodTok tok with
          | some (name, sig) =>
            match rest with
            | ll :: rest2 =>
              match tokensOfLine ll with
              | [t2, ntok] =>
                if t2 = kwLocals then
                  match readNat ntok with
                  | some nloc =>
                    match parseInstrLines rest2 with
                    | some (is, r) => some (⟨ms, name, sig, nloc, is⟩, r)
                    | none => none
                  | none => none
                else none
              | _ => none
            | [] => none
          | none => none
        | _ => none
      else none
    | [] => none

/-- Does a line start a `.method` block? -/
def isMethodStart (l : List Char) : Bool :=
  match tokensOfLine l with
  | t :: _ => t = kwMethod
  | [] => false

/-- Parser: a fuel-indexed run of method blocks. -/
def parseMethodsAux :
    Nat → List (List Char) → Option (List SmaliMethod × List (List Char))
  | _, [] => some ([], [])
  | 0, l :: rest => if isMethodStart l then none else some ([], l :: rest)
  | fuel + 1, l :: rest =>
    if isMethodStart l then
      match parseMethodBlock (l :: rest) with
      | some (m, r) =>
        match parseMethodsAux fuel r with
        | some (ms, r2) => some (m :: ms, r2)
        | none => none
      | none => none
    else some ([], l :: rest)

/-- Parser: the line-structured class grammar of spec section 4.2. -/
def parseClassLines (lines : List (List Char)) : Except SmaliError SmaliClass :=
  match lines with
  | [] => Except.error ⟨"parse error: empty input"⟩
  | hl :: rest =>
    match tokensOfLine hl with
    | t :: args =>
      if t = kwClass then
        match parseModsAux args with
        | (ms, [tok]) =>
          match parseJniTok tok with
          | some name =>
            match parseSuper rest with
            | some (sup, rest2) =>
              match parseImplsAux rest2 with
              | some (os, rest3) =>
                match parseFieldsAux rest3 with
                | some (fs, rest4) =>
                  match parseMethodsAux rest4.length rest4 with
                  | some (msth, []) =>
                    Except.ok ⟨ms, name, sup, os, fs, msth⟩
                  | some (_, _ :: _) =>
                    Except.error ⟨"parse error: trailing input"⟩
                  | none => Except.error ⟨"parse error: method block"⟩
                | none => Except.error ⟨"parse error: field"⟩
              | none => Except.error ⟨"parse error: implements"⟩
            | none => Except.error ⟨"parse error: super"⟩
          | none => Except.error ⟨"parse error: class name"⟩
        | _ => Except.error ⟨"parse error: class header"⟩
      else Except.error ⟨"parse error: expected .class"⟩
    | [] => Except.error ⟨"parse error: empty line"⟩

/-- Modelled from the spec: `SmaliClass::from_smali`, the whole-class
parser (spec sections 4.2 and 6): split into lines, drop blank and comment
lines, parse the directive grammar. -/
def from_smali (s : String) : Except SmaliError SmaliClass :=
  parseClassLines ((linesOfText s.toList).filter (fun l => !(isNoiseLine l)))

/-- Token safety: no separator characters inside a token. -/
def tokSafe (t : List Char) : Bool := t.all (fun c => c ≠ ' ' && c ≠ '\n')

theorem tokensOfLine_lineOfTokens (ts : List (List Char)) (hne : ts ≠ [])
    (hsp : ∀ t ∈ ts, ' ' ∉ t) : tokensOfLine (lineOfTokens ts) = ts :=
  List.splitOn_intercalate ts ' ' hsp hne

theorem linesOfText_textOfLines (ls : List (List Char)) (hne : ls ≠ [])
    (hnl : ∀ l ∈ ls, '\n' ∉ l) : linesOfText (textOfLines ls) = ls :=
  List.splitOn_intercalate ls '\n' hnl hne

theorem lineOfTokens_nil : lineOfTokens [] = [] := by
  simp [lineOfTokens, List.intercalate]

theorem lineOfTokens_single (t : List Char) : lineOfTokens [t] = t := by
  simp [lineOfTokens, List.intercalate]

theorem lineOfTokens_cons_cons (t u : List Char) (rest : List (List Char)) :
    lineOfTokens (t :: u :: rest) = t ++ ' ' :: lineOfTokens (u :: rest) := by
  simp [lineOfTokens, List.intercalate, List.intersperse]

theorem mem_lineOfTokens (ts : List (List Char)) (a : Char)
    (h : a ∈ lineOfTokens ts) : a = ' ' ∨ ∃ t ∈ ts, a ∈ t := by
  induction ts with
  | nil => rw [lineOfTokens_nil] at h; simp at h
  | cons t ts ih =>
    cases ts with
    | nil =>
      rw [lineOfTokens_single] at h
      exact Or.inr ⟨t, by simp, h⟩
    | cons u rest =>
      rw [lineOfTokens_cons_cons] at h
      rcases List.mem_append.mp h with h2 | h2
      · exact Or.inr ⟨t, by simp, h2⟩
      · rcases List.mem_cons.mp h2 with h3 | h3
        · exact Or.inl h3
        · rcases ih h3 with h4 | ⟨u2, hu2, ha⟩
          · exact Or.inl h4
          · exact Or.inr ⟨u2, by simp [List.mem_cons.mp hu2], ha⟩

/-- A line built from safe tokens contains no newline. -/
theorem lineOfTokens_no_newline (ts : List (List Char))
    (h : ∀ t ∈ ts, tokSafe t = true) : '\n' ∉ lineOfTokens ts := by
  intro hmem
  rcases mem_lineOfTokens ts '\n' hmem with h2 | ⟨t, ht, hc⟩
  · exact absurd h2 (by decide)
  · have := List.all_eq_true.mp (h t ht) '\n' hc
    simp at this

/-- Safe tokens contain no space. -/
theorem tokSafe_no_space (t : List Char) (h : tokSafe t = true) : ' ' ∉ t := by
  intro hmem
  have := List.all_eq_true.mp h ' ' hmem
  simp at this

/-- A line whose first token starts with a visible non-comment character is
not a noise line. -/
theorem isNoiseLine_lineOfTokens (c : Char) (t2 : List Char)
    (ts : List (List Char)) (hc1 : c ≠ ' ') (hc2 : c ≠ '#') :
    isNoiseLine (lineOfTokens ((c :: t2) :: ts)) = false := by
  have hline : ∃ r, lineOfTokens ((c :: t2) :: ts) = c :: r := by
    cases ts with
    | nil => exact ⟨t2, lineOfTokens_single (c :: t2)⟩
    | cons u rest =>
      refine ⟨t2 ++ ' ' :: lineOfTokens (u :: rest), ?_⟩
      rw [lineOfTokens_cons_cons]
      simp
  obtain ⟨r, hr⟩ := hline
  rw [hr]
  simp only [isNoiseLine, List.dropWhile_cons]
  rw [if_neg (by simp [hc1])]
  simp [hc2]

theorem digitVal_ne_sep (c : Char) (h : (digitVal c).isSome = true) :
    c ≠ ' ' ∧ c ≠ '\n' := by
  constructor
  · intro he; rw [he] at h; simp [digitVal] at h
  · intro he; rw [he] at h; simp [digitVal] at h

theorem tokSafe_iff (t : List Char) :
    tokSafe t = true ↔ ∀ c ∈ t, c ≠ ' ' ∧ c ≠ '\n' := by
  simp [tokSafe, List.all_eq_true]

theorem tokSafe_natChars (n : Nat) : tokSafe (natChars n) = true := by
  rw [tokSafe_iff]
  intro c hc
  exact digitVal_ne_sep c (digitVal_isSome_natDigsAux (n + 1) n c hc)

theorem tokSafe_append (t u : List Char) (ht : tokSafe t = true)
    (hu : tokSafe u = true) : tokSafe (t ++ u) = true := by
  rw [tokSafe_iff] at ht hu ⊢
  intro c hc
  rcases List.mem_append.mp hc with h | h
  · exact ht c h
  · exact hu c h

theorem tokSafe_regTok (r : Reg) : tokSafe (regTok r) = true := by
  cases r with
  | v n =>
    rw [regTok, tokSafe_iff]
    intro c hc
    rcases List.mem_cons.mp hc with h | h
    · subst h; exact ⟨by decide, by decide⟩
    · exact (tokSafe_iff (natChars n)).mp (tokSafe_natChars n) c h
  | p n =>
    rw [regTok, tokSafe_iff]
    intro c hc
    rcases List.mem_cons.mp hc with h | h
    · subst h; exact ⟨by decide, by decide⟩
    · exact (tokSafe_iff (natChars n)).mp (tokSafe_natChars n) c h

theorem tokSafe_modChars (m : Modifier) : tokSafe (modChars m) = true := by
  cases m <;> decide

theorem tokSafe_jniTok (o : ObjectIdentifier) (h : wfIdent o = true) :
    tokSafe (jniTok o) = true := by
  rw [jniTok, tokSafe_iff]
  intro c hc
  rw [wfIdent] at h
  rcases List.mem_append.mp hc with h2 | h2
  · rcases List.mem_cons.mp h2 with h3 | h3
    · subst h3; exact ⟨by decide, by decide⟩
    · have := List.all_eq_true.mp h c h3
      simp only [wfIdentChar, Bool.and_eq_true, decide_eq_true_eq] at this
      exact ⟨this.1.2, this.2⟩
  · simp only [List.mem_singleton] at h2
    subst h2
    exact ⟨by decide, by decide⟩

theorem tokSafe_jniChars (t : TypeSignature) (h : wfType t = true) :
    tokSafe (jniChars t) = true := by
  induction t with
  | Object o => exact tokSafe_jniTok o (by rw [wfIdent]; exact h)
  | Array e k ih =>
    simp only [wfType, Bool.and_eq_true, Bool.not_eq_true',
      decide_eq_true_eq] at h
    rw [jniChars]
    apply tokSafe_append
    · rw [tokSafe_iff]
      intro c hc
      rw [List.eq_of_mem_replicate hc]
      exact ⟨by decide, by decide⟩
    · exact ih h.2
  | Void => decide
  | Bool => decide
  | Byte => decide
  | Char => decide
  | Short => decide
  | Int => decide
  | Long => decide
  | Float => decide
  | Double => decide

theorem tokSafe_methodSigChars (m : MethodSignature)
    (h : wfMethodSig m = true) : tokSafe (methodSigChars m) = true := by
  simp only [wfMethodSig, Bool.and_eq_true] at h
  rw [methodSigChars, tokSafe_iff]
  intro c hc
  rcases List.mem_cons.mp hc with h2 | h2
  · subst h2; exact ⟨by decide, by decide⟩
  rcases List.mem_append.mp h2 with h3 | h3
  · obtain ⟨l, hl, hcl⟩ := List.mem_flatten.mp h3
    obtain ⟨a, ha, rfl⟩ := List.mem_map.mp hl
    have := tokSafe_jniChars a (List.all_eq_true.mp h.1 a ha)
    exact (tokSafe_iff _).mp this c hcl
  rcases List.mem_cons.mp h3 with h4 | h4
  · subst h4; exact ⟨by decide, by decide⟩
  · exact (tokSafe_iff _).mp (tokSafe_jniChars m.return_type h.2) c h4

theorem tokSafe_fieldNameTok (n : List Char) (ty : TypeSignature)
    (hn : wfFieldName n = true) (hty : wfType ty = true) :
    tokSafe (n ++ ':' :: jniChars ty) = true := by
  rw [tokSafe_iff]
  intro c hc
  rcases List.mem_append.mp hc with h | h
  · have := List.all_eq_true.mp hn c h
    simp only [Bool.and_eq_true, decide_eq_true_eq] at this
    exact ⟨this.1.2, this.2⟩
  rcases List.mem_cons.mp h with h2 | h2
  · subst h2; exact ⟨by decide, by decide⟩
  · exact (tokSafe_iff _).mp (tokSafe_jniChars ty hty) c h2

theorem tokSafe_methodNameTok (n : List Char) (sig : MethodSignature)
    (hn : wfMethodName n = true) (hsig : wfMethodSig sig = true) :
    tokSafe (n ++ methodSigChars sig) = true := by
  apply tokSafe_append
  · rw [tokSafe_iff]
    intro c hc
    have := List.all_eq_true.mp hn c hc
    simp only [Bool.and_eq_true, decide_eq_true_eq] at this
    exact ⟨this.1.2, this.2⟩
  · exact tokSafe_methodSigChars sig hsig

theorem tokSafe_labelTok (l : List Char) (h : wfLabel l = true) :
    tokSafe (':' :: l) = true := by
  rw [tokSafe_iff]
  intro c hc
  rcases List.mem_cons.mp hc with h2 | h2
  · subst h2; exact ⟨by decide, by decide⟩
  · have := List.all_eq_true.mp h c h2
    simp only [Bool.and_eq_true, decide_eq_true_eq] at this
    exact ⟨this.1, this.2⟩

theorem tokSafe_commaTok (r : Reg) : tokSafe (regTok r ++ [',']) = true := by
  apply tokSafe_append (regTok r) [','] (tokSafe_regTok r)
  decide

/-- Every token of a rendered instruction is safe. -/
theorem tokSafe_instrTokens (i : SmaliInstruction) (h : wfInstr i = true) :
    ∀ t ∈ instrTokens i, tokSafe t = true := by
  cases i with
  | ReturnVoid => intro t ht; simp only [instrTokens, List.mem_singleton] at ht; subst ht; decide
  | Move d s =>
    intro t ht
    simp only [instrTokens, List.mem_cons, List.not_mem_nil, or_false] at ht
    rcases ht with rfl | rfl | rfl
    · decide
    · exact tokSafe_commaTok d
    · exact tokSafe_regTok s
  | Const d n =>
    intro t ht
    simp only [instrTokens, List.mem_cons, List.not_mem_nil, or_false] at ht
    rcases ht with rfl | rfl | rfl
    · decide
    · exact tokSafe_commaTok d
    · exact tokSafe_natChars n
  | Goto l =>
    intro t ht
    simp only [instrTokens, List.mem_cons, List.not_mem_nil, or_false] at ht
    rcases ht with rfl | rfl
    · decide
    · exact tokSafe_labelTok l h
  | LabelDef l =>
    intro t ht
    simp only [instrTokens, List.mem_singleton] at ht
    subst ht
    exact tokSafe_labelTok l h

theorem toks_of_wf_line (ts : List (List Char)) (hne : ts ≠ [])
    (h : ∀ t ∈ ts, tokSafe t = true) : tokensOfLine (lineOfTokens ts) = ts :=
  tokensOfLine_lineOfTokens ts hne (fun t ht => tokSafe_no_space t (h t ht))

theorem modOfTok_modChars (m : Modifier) : modOfTok (modChars m) = some m := by
  cases m <;> decide

set_option maxHeartbeats 1000000 in
theorem modOfTok_none (t : List Char) (c : Char) (hc : c ∈ t)
    (hall : ∀ m : Modifier, c ∉ modChars m) : modOfTok t = none := by
  unfold modOfTok
  split_ifs with h1 h2 h3 h4 h5 h6 h7 h8 h9 h10
  · rw [h1] at hc; exact absurd hc (hall Modifier.Public)
  · rw [h2] at hc; exact absurd hc (hall Modifier.Private)
  · rw [h3] at hc; exact absurd hc (hall Modifier.Protected)
  · rw [h4] at hc; exact absurd hc (hall Modifier.Static)
  · rw [h5] at hc; exact absurd hc (hall Modifier.Final)
  · rw [h6] at hc; exact absurd hc (hall Modifier.Abstract)
  · rw [h7] at hc; exact absurd hc (hall Modifier.Interface)
  · rw [h8] at hc; exact absurd hc (hall Modifier.Enum)
  · rw [h9] at hc; exact absurd hc (hall Modifier.Annot)
  · rw [h10] at hc; exact absurd hc (hall Modifier.Synthetic)
  · rfl

theorem modOfTok_jniTok (o : ObjectIdentifier) : modOfTok (jniTok o) = none := by
  apply modOfTok_none (jniTok o) ';'
  · rw [jniTok]
    exact List.mem_append.mpr (Or.inr (by simp))
  · intro m; cases m <;> decide

theorem modOfTok_fieldTok (n : List Char) (ty : TypeSignature) :
    modOfTok (n ++ ':' :: jniChars ty) = none := by
  apply modOfTok_none _ ':'
  · exact List.mem_append.mpr (Or.inr (by simp))
  · intro m; cases m <;> decide

theorem modOfTok_methodTok (n : List Char) (sig : MethodSignature) :
    modOfTok (n ++ methodSigChars sig) = none := by
  apply modOfTok_none _ '('
  · exact List.mem_append.mpr (Or.inr (by rw [methodSigChars]; simp))
  · intro m; cases m <;> decide

theorem parseModsAux_render (ms : List Modifier) (tok : List Char)
    (h : modOfTok tok = none) :
    parseModsAux (ms.map modChars ++ [tok]) = (ms, [tok]) := by
  induction ms with
  | nil => simp [parseModsAux, h]
  | cons m ms ih => simp [parseModsAux, modOfTok_modChars m, ih]

theorem parseJniTok_jniTok (o : ObjectIdentifier) (h : wfIdent o = true) :
    parseJniTok (jniTok o) = some o := by
  have hform : jniTok o = 'L' :: (o.ident ++ [';']) := by simp [jniTok]
  rw [hform]
  simp only [parseJniTok]
  rw [if_pos]
  · simp
  · simp only [List.getLast?_concat, List.dropLast_concat]
    rw [wfIdent] at h
    simp [h]

theorem decodeOne_jniChars_nil (t : TypeSignature) (h : wfType t = true) :
    decodeOne (jniChars t) = some (t, []) := by
  have := decodeOne_jniChars t h []
  rwa [List.append_nil] at this

theorem parseFieldTok_render (n : List Char) (ty : TypeSignature)
    (hn : wfFieldName n = true) (hty : wfType ty = true) :
    parseFieldTok (n ++ ':' :: jniChars ty) = some (n, ty) := by
  have hp : ∀ c ∈ n, (fun c => decide (c ≠ ':')) c = true := by
    intro c hc
    have := List.all_eq_true.mp hn c hc
    simp only [Bool.and_eq_true, decide_eq_true_eq] at this
    simp [this.1.1]
  have hx : (fun c => decide (c ≠ ':')) ':' = false := by simp
  simp only [parseFieldTok]
  rw [dropWhile_append_all ':' (jniChars ty) hp hx,
    takeWhile_append_all ':' (jniChars ty) hp hx]
  simp [hn, decodeOne_jniChars_nil ty hty, hty]

theorem jniChars_ne_nil (t : TypeSignature) (h : wfType t = true) :
    jniChars t ≠ [] := by
  cases t with
  | Object o => simp [jniChars]
  | Array e k =>
    simp only [wfType, Bool.and_eq_true, decide_eq_true_eq] at h
    obtain ⟨⟨hk, _⟩, _⟩ := h
    obtain ⟨k2, rfl⟩ : ∃ k2, k = k2 + 1 := ⟨k - 1, by omega⟩
    simp [jniChars, List.replicate_succ]
  | Void => simp [jniChars]
  | Bool => simp [jniChars]
  | Byte => simp [jniChars]
  | Char => simp [jniChars]
  | Short => simp [jniChars]
  | Int => simp [jniChars]
  | Long => simp [jniChars]
  | Float => simp [jniChars]
  | Double => simp [jniChars]

theorem jniChars_head_ne_close (t : TypeSignature) (h : wfType t = true)
    (c : Char) (tl : List Char) (heq : jniChars t = c :: tl) : c ≠ ')' := by
  cases t with
  | Object o =>
    have : jniChars (TypeSignature.Object o) = 'L' :: (o.ident ++ [';']) := by
      simp [jniChars]
    rw [this] at heq
    cases heq
    decide
  | Array e k =>
    simp only [wfType, Bool.and_eq_true, decide_eq_true_eq] at h
    obtain ⟨⟨hk, _⟩, _⟩ := h
    obtain ⟨k2, rfl⟩ : ∃ k2, k = k2 + 1 := ⟨k - 1, by omega⟩
    have : jniChars (TypeSignature.Array e (k2 + 1))
        = '[' :: (List.replicate k2 '[' ++ jniChars e) := by
      simp [jniChars, List.replicate_succ]
    rw [this] at heq
    cases heq
    decide
  | Void => cases heq; decide
  | Bool => cases heq; decide
  | Byte => cases heq; decide
  | Char => cases heq; decide
  | Short => cases heq; decide
  | Int => cases heq; decide
  | Long => cases heq; decide
  | Float => cases heq; decide
  | Double => cases heq; decide

theorem parseParamsAux_render :
    ∀ (ts : List TypeSignature) (fuel : Nat) (rest : List Char),
      (∀ t ∈ ts, wfType t = true) → ts.length + 1 ≤ fuel →
      parseParamsAux fuel ((ts.map jniChars).flatten ++ ')' :: rest)
        = some (ts, rest) := by
  intro ts
  induction ts with
  | nil =>
    intro fuel rest h hf
    obtain ⟨f, rfl⟩ : ∃ f, fuel = f + 1 := ⟨fuel - 1, by omega⟩
    simp [parseParamsAux]
  | cons t ts ih =>
    intro fuel rest h hf
    obtain ⟨f, rfl⟩ : ∃ f, fuel = f + 1 := ⟨fuel - 1, by omega⟩
    have hwt : wfType t = true := h t (by simp)
    have hdec := decodeOne_jniChars t hwt
      ((ts.map jniChars).flatten ++ ')' :: rest)
    have hih := ih f rest (fun a ha => h a (by simp [ha]))
      (by simp at hf ⊢; omega)
    cases hj : jniChars t with
    | nil => exact absurd hj (jniChars_ne_nil t hwt)
    | cons c tl =>
      have hc : ¬(c = ')') := jniChars_head_ne_close t hwt c tl hj
      rw [hj] at hdec
      have hflat : ((t :: ts).map jniChars).flatten ++ ')' :: rest
          = c :: (tl ++ ((ts.map jniChars).flatten ++ ')' :: rest)) := by
        simp [hj]
      rw [hflat]
      simp only [parseParamsAux, if_neg hc]
      rw [List.cons_append] at hdec
      simp [hdec, hih]

theorem length_le_flatten (ls : List TypeSignature)
    (h : ∀ t ∈ ls, wfType t = true) :
    ls.length ≤ ((ls.map jniChars).flatten).length := by
  induction ls with
  | nil => simp
  | cons a l ih =>
    simp only [List.map_cons, List.flatten_cons, List.length_append,
      List.length_cons]
    have ha : 1 ≤ (jniChars a).length := by
      cases hj : jniChars a with
      | nil => exact absurd hj (jniChars_ne_nil a (h a (by simp)))
      | cons x xs => simp
    have hl := ih (fun t ht => h t (by simp [ht]))
    omega

theorem fromJniChars_render (m : MethodSignature) (h : wfMethodSig m = true) :
    fromJniChars (methodSigChars m) = some m := by
  rw [wfMethodSig, Bool.and_eq_true] at h
  have hform : methodSigChars m
      = '(' :: ((m.args.map jniChars).flatten
        ++ ')' :: jniChars m.return_type) := by
    rw [methodSigChars]; simp
  have hlen : m.args.length + 1
      ≤ ((m.args.map jniChars).flatten ++ ')' :: jniChars m.return_type).length := by
    rw [List.length_append]
    have := length_le_flatten m.args (List.all_eq_true.mp h.1)
    simp only [List.length_cons]
    omega
  have hparams : parseParams ((m.args.map jniChars).flatten
      ++ ')' :: jniChars m.return_type) = some (m.args, jniChars m.return_type) :=
    parseParamsAux_render m.args _ (jniChars m.return_type)
      (List.all_eq_true.mp h.1) hlen
  rw [hform]
  show (match parseParams ((m.args.map jniChars).flatten
      ++ ')' :: jniChars m.return_type) with
    | some (ts, r) =>
      match decodeOne r with
      | some (t, []) => some (⟨ts, t⟩ : MethodSignature)
      | _ => none
    | none => none) = some m
  rw [hparams]
  simp [decodeOne_jniChars_nil m.return_type h.2]

theorem parseMethodTok_render (n : List Char) (sig : MethodSignature)
    (hn : wfMethodName n = true) (hsig : wfMethodSig sig = true) :
    parseMethodTok (n ++ methodSigChars sig) = some (n, sig) := by
  have hp : ∀ c ∈ n, (fun c => decide (c ≠ '(')) c = true := by
    intro c hc
    have := List.all_eq_true.mp hn c hc
    simp only [Bool.and_eq_true, decide_eq_true_eq] at this
    simp [this.1.1]
  have hx : (fun c => decide (c ≠ '(')) '(' = false := by simp
  have hform : n ++ methodSigChars sig
      = n ++ '(' :: ((sig.args.map jniChars).flatten
        ++ ')' :: jniChars sig.return_type) := by
    rw [methodSigChars]; simp
  have hback : '(' :: ((sig.args.map jniChars).flatten
      ++ ')' :: jniChars sig.return_type) = methodSigChars sig := by
    rw [methodSigChars]; simp
  simp only [parseMethodTok]
  rw [hform, dropWhile_append_all '(' _ hp hx, takeWhile_append_all '(' _ hp hx,
    hback, if_pos hn, fromJniChars_render sig hsig]
  simp [hsig]

theorem toks_classHeaderLine (c : SmaliClass) (h : wfIdent c.name = true) :
    tokensOfLine (classHeaderLine c)
      = kwClass :: c.modifiers.map modChars ++ [jniTok c.name] := by
  apply toks_of_wf_line
  · simp
  · intro t ht
    rcases List.mem_cons.mp ht with rfl | ht2
    · decide
    rcases List.mem_append.mp ht2 with h3 | h3
    · obtain ⟨m, _, rfl⟩ := List.mem_map.mp h3
      exact tokSafe_modChars m
    · simp only [List.mem_singleton] at h3
      subst h3
      exact tokSafe_jniTok _ h

theorem toks_superLine (s : ObjectIdentifier) (h : wfIdent s = true) :
    tokensOfLine (lineOfTokens [kwSuper, jniTok s]) = [kwSuper, jniTok s] := by
  apply toks_of_wf_line
  · simp
  · intro t ht
    rcases List.mem_cons.mp ht with rfl | ht2
    · decide
    simp only [List.mem_singleton] at ht2
    subst ht2
    exact tokSafe_jniTok s h

theorem toks_implLine (o : ObjectIdentifier) (h : wfIdent o = true) :
    tokensOfLine (implLine o) = [kwImplements, jniTok o] := by
  apply toks_of_wf_line
  · simp
  · intro t ht
    rcases List.mem_cons.mp ht with rfl | ht2
    · decide
    simp only [List.mem_singleton] at ht2
    subst ht2
    exact tokSafe_jniTok o h

theorem toks_fieldLine (f : SmaliField) (h : wfField f = true) :
    tokensOfLine (fieldLine f)
      = kwField :: f.modifiers.map modChars
        ++ [f.name ++ ':' :: jniChars f.sig] := by
  rw [wfField, Bool.and_eq_true] at h
  apply toks_of_wf_line
  · simp
  · intro t ht
    rcases List.mem_cons.mp ht with rfl | ht2
    · decide
    rcases List.mem_append.mp ht2 with h3 | h3
    · obtain ⟨m, _, rfl⟩ := List.mem_map.mp h3
      exact tokSafe_modChars m
    · simp only [List.mem_singleton] at h3
      subst h3
      exact tokSafe_fieldNameTok f.name f.sig h.1 h.2

theorem toks_methodHeaderLine (m : SmaliMethod) (h : wfMethod m = true) :
    tokensOfLine (methodHeaderLine m)
      = kwMethod :: m.modifiers.map modChars
        ++ [m.name ++ methodSigChars m.sig] := by
  rw [wfMethod, Bool.and_eq_true, Bool.and_eq_true] at h
  apply toks_of_wf_line
  · simp
  · intro t ht
    rcases List.mem_cons.mp ht with rfl | ht2
    · decide
    rcases List.mem_append.mp ht2 with h3 | h3
    · obtain ⟨md, _, rfl⟩ := List.mem_map.mp h3
      exact tokSafe_modChars md
    · simp only [List.mem_singleton] at h3
      subst h3
      exact tokSafe_methodNameTok m.name m.sig h.1.1 h.1.2

theorem toks_localsLine (m : SmaliMethod) :
    tokensOfLine (localsLine m) = [kwLocals, natChars m.locals] := by
  apply toks_of_wf_line
  · simp
  · intro t ht
    rcases List.mem_cons.mp ht with rfl | ht2
    · decide
    simp only [List.mem_singleton] at ht2
    subst ht2
    exact tokSafe_natChars m.locals

theorem instrTokens_ne_nil (i : SmaliInstruction) : instrTokens i ≠ [] := by
  cases i <;> simp [instrTokens]

theorem toks_instrLine (i : SmaliInstruction) (h : wfInstr i = true) :
    tokensOfLine (instrLine i) = instrTokens i := by
  apply toks_of_wf_line
  · exact instrTokens_ne_nil i
  · exact tokSafe_instrTokens i h

theorem toks_endMethodLine :
    tokensOfLine endMethodLine = [kwEnd, kwMethodWord] := by decide

theorem parseRegTok_regTok (r : Reg) : parseRegTok (regTok r) = some r := by
  cases r with
  | v n => simp [regTok, parseRegTok, readNat_natChars n]
  | p n => simp [regTok, parseRegTok, readNat_natChars n]

theorem dropComma_concat (t : List Char) : dropComma (t ++ [',']) = some t := by
  simp [dropComma, List.getLast?_concat, List.dropLast_concat]

theorem parseLabelTok_label (l : List Char) (h : wfLabel l = true) :
    parseLabelTok (':' :: l) = some l := by
  simp [parseLabelTok, h]

theorem parseInstrToks_render (i : SmaliInstruction) (h : wfInstr i = true) :
    parseInstrToks (instrTokens i) = some i := by
  cases i with
  | ReturnVoid => decide
  | Move d s =>
    simp [instrTokens, parseInstrToks, dropComma_concat, parseRegTok_regTok]
  | Const d n =>
    have hne : (kwConst = kwMove) = False := by simp [kwConst, kwMove]
    simp [instrTokens, parseInstrToks, dropComma_concat, parseRegTok_regTok,
      readNat_natChars, hne]
  | Goto l =>
    simp [instrTokens, parseInstrToks, parseLabelTok_label l h]
  | LabelDef l =>
    have hne : ¬((':' :: l) = kwReturnVoid) := by simp [kwReturnVoid]
    simp [instrTokens, parseInstrToks, parseLabelTok_label l h, hne]

theorem instrLine_ne_endMethodLine (i : SmaliInstruction)
    (h : wfInstr i = true) : instrLine i ≠ endMethodLine := by
  intro heq
  have h2 := congrArg tokensOfLine heq
  rw [toks_instrLine i h, toks_endMethodLine] at h2
  cases i <;>
    simp [instrTokens, kwReturnVoid, kwMove, kwConst, kwGoto, kwEnd,
      kwMethodWord] at h2

theorem parseInstrLines_render (is : List SmaliInstruction)
    (h : ∀ i ∈ is, wfInstr i = true) (rest : List (List Char)) :
    parseInstrLines (is.map instrLine ++ (endMethodLine :: rest))
      = some (is, rest) := by
  induction is with
  | nil => simp [parseInstrLines]
  | cons i is2 ih =>
    have hwf : wfInstr i = true := h i (by simp)
    have hne := instrLine_ne_endMethodLine i hwf
    simp only [List.map_cons, List.cons_append, parseInstrLines, if_neg hne]
    simp [toks_instrLine i hwf, parseInstrToks_render i hwf,
      ih (fun j hj => h j (by simp [hj]))]

theorem parseMethodBlock_render (m : SmaliMethod) (hm : wfMethod m = true)
    (rest : List (List Char)) :
    parseMethodBlock (methodLines m ++ rest) = some (m, rest) := by
  have hparts := hm
  rw [wfMethod, Bool.and_eq_true, Bool.and_eq_true] at hparts
  have hform : methodLines m ++ rest
      = methodHeaderLine m :: localsLine m
        :: (m.instructions.map instrLine ++ (endMethodLine :: rest)) := by
    simp [methodLines]
  rw [hform]
  simp only [parseMethodBlock]
  simp [toks_methodHeaderLine m hm,
    parseModsAux_render m.modifiers (m.name ++ methodSigChars m.sig)
      (modOfTok_methodTok m.name m.sig),
    parseMethodTok_render m.name m.sig hparts.1.1 hparts.1.2,
    toks_localsLine m, readNat_natChars m.locals,
    parseInstrLines_render m.instructions (List.all_eq_true.mp hparts.2) rest]

theorem isMethodStart_header (m : SmaliMethod) (hm : wfMethod m = true) :
    isMethodStart (methodHeaderLine m) = true := by
  rw [isMethodStart, toks_methodHeaderLine m hm]
  simp

theorem parseMethodsAux_render (ms : List SmaliMethod) :
    ∀ fuel : Nat, ms.length ≤ fuel →
    (∀ m ∈ ms, wfMethod m = true) →
    parseMethodsAux fuel ((ms.map methodLines).flatten) = some (ms, []) := by
  induction ms with
  | nil =>
    intro fuel hf h
    simp [parseMethodsAux]
  | cons m ms2 ih =>
    intro fuel hf h
    obtain ⟨f, rfl⟩ : ∃ f, fuel = f + 1 := ⟨fuel - 1, by simp at hf; omega⟩
    have hm : wfMethod m = true := h m (by simp)
    have hform : ((m :: ms2).map methodLines).flatten
        = methodHeaderLine m :: (localsLine m
          :: (m.instructions.map instrLine ++ [endMethodLine])
          ++ (ms2.map methodLines).flatten) := by
      simp [methodLines]
    have hblock : parseMethodBlock (methodHeaderLine m :: localsLine m
        :: (m.instructions.map instrLine
          ++ endMethodLine :: (ms2.map methodLines).flatten))
        = some (m, (ms2.map methodLines).flatten) := by
      have h2 := parseMethodBlock_render m hm ((ms2.map methodLines).flatten)
      rw [show methodLines m ++ (ms2.map methodLines).flatten
          = methodHeaderLine m :: localsLine m
            :: (m.instructions.map instrLine
              ++ endMethodLine :: (ms2.map methodLines).flatten) from by
        simp [methodLines]] at h2
      exact h2
    rw [hform]
    simp only [parseMethodsAux, if_pos (isMethodStart_header m hm)]
    simp [hblock, ih f (by simp at hf; omega) (fun a ha => h a (by simp [ha]))]

/-- First token of the first line of a line list. -/
def headTok (lines : List (List Char)) : Option (List Char) :=
  match lines with
  | [] => none
  | l :: _ => (tokensOfLine l).head?

theorem parseSuper_skip (lines : List (List Char))
    (h : headTok lines ≠ some kwSuper) :
    parseSuper lines = some (none, lines) := by
  cases lines with
  | nil => rfl
  | cons l rest =>
    cases htoks : tokensOfLine l with
    | nil => simp [parseSuper, htoks]
    | cons t args =>
      have hne : ¬(t = kwSuper) := by
        intro heq
        apply h
        simp [headTok, htoks, heq]
      simp [parseSuper, htoks, hne]

theorem parseSuper_render (s : ObjectIdentifier) (hs : wfIdent s = true)
    (rest : List (List Char)) :
    parseSuper (lineOfTokens [kwSuper, jniTok s] :: rest)
      = some (some s, rest) := by
  simp [parseSuper, toks_superLine s hs, parseJniTok_jniTok s hs]

theorem parseImplsAux_render (os : List ObjectIdentifier)
    (h : ∀ o ∈ os, wfIdent o = true) (rest : List (List Char))
    (hrest : headTok rest ≠ some kwImplements) :
    parseImplsAux (os.map implLine ++ rest) = some (os, rest) := by
  induction os with
  | nil =>
    cases rest with
    | nil => rfl
    | cons l rest2 =>
      cases htoks : tokensOfLine l with
      | nil => simp [parseImplsAux, htoks]
      | cons t args =>
        have hne : ¬(t = kwImplements) := by
          intro heq
          apply hrest
          simp [headTok, htoks, heq]
        simp [parseImplsAux, htoks, hne]
  | cons o os2 ih =>
    have ho : wfIdent o = true := h o (by simp)
    simp only [List.map_cons, List.cons_append, parseImplsAux]
    simp [toks_implLine o ho, parseJniTok_jniTok o ho,
      ih (fun a ha => h a (by simp [ha]))]

theorem parseFieldsAux_render (fs : List SmaliField)
    (h : ∀ f ∈ fs, wfField f = true) (rest : List (List Char))
    (hrest : headTok rest ≠ some kwField) :
    parseFieldsAux (fs.map fieldLine ++ rest) = some (fs, rest) := by
  induction fs with
  | nil =>
    cases rest with
    | nil => rfl
    | cons l rest2 =>
      cases htoks : tokensOfLine l with
      | nil => simp [parseFieldsAux, htoks]
      | cons t args =>
        have hne : ¬(t = kwField) := by
          intro heq
          apply hrest
          simp [headTok, htoks, heq]
        simp [parseFieldsAux, htoks, hne]
  | cons f fs2 ih =>
    have hf : wfField f = true := h f (by simp)
    have hfparts := hf
    rw [wfField, Bool.and_eq_true] at hfparts
    simp only [List.map_cons, List.cons_append, parseFieldsAux]
    simp [toks_fieldLine f hf,
      parseModsAux_render f.modifiers (f.name ++ ':' :: jniChars f.sig)
        (modOfTok_fieldTok f.name f.sig),
      parseFieldTok_render f.name f.sig hfparts.1 hfparts.2,
      ih (fun a ha => h a (by simp [ha]))]

theorem headTok_methodsFlat_ne (ms : List SmaliMethod)
    (h : ∀ m ∈ ms, wfMethod m = true) (kw : List Char) (hkw : kw ≠ kwMethod) :
    headTok ((ms.map methodLines).flatten) ≠ some kw := by
  cases ms with
  | nil => simp [headTok]
  | cons m ms2 =>
    have hform : (((m :: ms2).map methodLines).flatten)
        = methodHeaderLine m :: (localsLine m
          :: (m.instructions.map instrLine
            ++ endMethodLine :: (ms2.map methodLines).flatten)) := by
      simp [methodLines]
    intro hc
    rw [hform] at hc
    simp only [headTok, toks_methodHeaderLine m (h m (by simp)),
      List.cons_append, List.head?_cons, Option.some.injEq] at hc
    exact hkw hc.symm

theorem headTok_fields_ne (fs : List SmaliField)
    (h : ∀ f ∈ fs, wfField f = true) (rest : List (List Char)) (kw : List Char)
    (hkw : kw ≠ kwField) (hrest : headTok rest ≠ some kw) :
    headTok (fs.map fieldLine ++ rest) ≠ some kw := by
  cases fs with
  | nil => simpa using hrest
  | cons f fs2 =>
    intro hc
    simp only [List.map_cons, headTok, toks_fieldLine f (h f (by simp)),
      List.cons_append, List.head?_cons, Option.some.injEq] at hc
    exact hkw hc.symm

theorem headTok_impls_ne (os : List ObjectIdentifier)
    (h : ∀ o ∈ os, wfIdent o = true) (rest : List (List Char)) (kw : List Char)
    (hkw : kw ≠ kwImplements) (hrest : headTok rest ≠ some kw) :
    headTok (os.map implLine ++ rest) ≠ some kw := by
  cases os with
  | nil => simpa using hrest
  | cons o os2 =>
    intro hc
    simp only [List.map_cons, headTok, toks_implLine o (h o (by simp)),
      List.cons_append, List.head?_cons, Option.some.injEq] at hc
    exact hkw hc.symm

theorem wfClass_parts (c : SmaliClass) (h : wfClass c = true) :
    wfIdent c.name = true ∧
    (∀ s, c.super = some s → wfIdent s = true) ∧
    (∀ o ∈ c.implements, wfIdent o = true) ∧
    (∀ f ∈ c.fields, wfField f = true) ∧
    (∀ m ∈ c.methods, wfMethod m = true) := by
  rw [wfClass] at h
  simp only [Bool.and_eq_true] at h
  obtain ⟨⟨⟨⟨h1, h2⟩, h3⟩, h4⟩, h5⟩ := h
  refine ⟨h1, ?_, List.all_eq_true.mp h3, List.all_eq_true.mp h4,
    List.all_eq_true.mp h5⟩
  intro s hs
  rw [hs] at h2
  exact h2

theorem length_le_methodsFlat (ms : List SmaliMethod) :
    ms.length ≤ ((ms.map methodLines).flatten).length := by
  induction ms with
  | nil => simp
  | cons m ms2 ih =>
    simp only [List.map_cons, List.flatten_cons, List.length_append,
      List.length_cons]
    have : 1 ≤ (methodLines m).length := by simp [methodLines]
    omega

/-- The class parser inverts the class writer on well-formed classes. -/
theorem parseClassLines_render (c : SmaliClass) (h : wfClass c = true) :
    parseClassLines (classLines c) = Except.ok c := by
  obtain ⟨hname, hsup, himpl, hfield, hmeth⟩ := wfClass_parts c h
  have hfuel : c.methods.length
      ≤ (List.map (List.length ∘ methodLines) c.methods).sum := by
    have h2 := length_le_methodsFlat c.methods
    simpa [List.length_flatten, List.map_map] using h2
  have hmethods := parseMethodsAux_render c.methods
    ((List.map (List.length ∘ methodLines) c.methods).sum) hfuel hmeth
  have hfne : headTok ((c.methods.map methodLines).flatten) ≠ some kwField :=
    headTok_methodsFlat_ne c.methods hmeth kwField (by decide)
  have hfields := parseFieldsAux_render c.fields hfield
    ((c.methods.map methodLines).flatten) hfne
  have hine : headTok (c.fields.map fieldLine
      ++ (c.methods.map methodLines).flatten) ≠ some kwImplements :=
    headTok_fields_ne c.fields hfield _ kwImplements (by decide)
      (headTok_methodsFlat_ne c.methods hmeth kwImplements (by decide))
  have himpls := parseImplsAux_render c.implements himpl
    (c.fields.map fieldLine ++ (c.methods.map methodLines).flatten) hine
  have hassoc : classLines c
      = classHeaderLine c :: (superLines c ++ (c.implements.map implLine
        ++ (c.fields.map fieldLine ++ (c.methods.map methodLines).flatten))) := by
    simp [classLines]
  rw [hassoc]
  cases hsc : c.super with
  | none =>
    have hslines : superLines c = [] := by simp [superLines, hsc]
    have hsne : headTok (c.implements.map implLine ++ (c.fields.map fieldLine
        ++ (c.methods.map methodLines).flatten)) ≠ some kwSuper := by
      apply headTok_impls_ne c.implements himpl _ kwSuper (by decide)
      apply headTok_fields_ne c.fields hfield _ kwSuper (by decide)
      exact headTok_methodsFlat_ne c.methods hmeth kwSuper (by decide)
    have hsuper := parseSuper_skip _ hsne
    rw [hslines]
    simp only [List.nil_append, parseClassLines]
    simp only [toks_classHeaderLine c hname]
    simp [parseModsAux_render c.modifiers (jniTok c.name)
        (modOfTok_jniTok c.name),
      parseJniTok_jniTok c.name hname, hsuper, himpls, hfields, hmethods,
      ← hsc]
  | some s =>
    have hws : wfIdent s = true := hsup s hsc
    have hslines : superLines c = [lineOfTokens [kwSuper, jniTok s]] := by
      simp [superLines, hsc]
    rw [hslines]
    simp only [List.cons_append, List.nil_append, parseClassLines]
    simp only [toks_classHeaderLine c hname]
    simp [parseModsAux_render c.modifiers (jniTok c.name)
        (modOfTok_jniTok c.name),
      parseJniTok_jniTok c.name hname, parseSuper_render s hws,
      himpls, hfields, hmethods, ← hsc]

/-- A good line: built from safe tokens, first token starts with a visible
non-comment character. -/
def goodLine (l : List Char) : Prop :=
  ∃ ch t1 ts, l = lineOfTokens ((ch :: t1) :: ts) ∧
    (∀ t ∈ (ch :: t1) :: ts, tokSafe t = true) ∧ ch ≠ ' ' ∧ ch ≠ '#'

theorem goodLine_noNewline (l : List Char) (h : goodLine l) : '\n' ∉ l := by
  obtain ⟨ch, t1, ts, rfl, hsafe, _, _⟩ := h
  exact lineOfTokens_no_newline _ hsafe

theorem goodLine_notNoise (l : List Char) (h : goodLine l) :
    isNoiseLine l = false := by
  obtain ⟨ch, t1, ts, rfl, hsafe, h1, h2⟩ := h
  exact isNoiseLine_lineOfTokens ch t1 ts h1 h2

theorem goodLine_instrLine (i : SmaliInstruction) (h : wfInstr i = true) :
    goodLine (instrLine i) := by
  cases i with
  | ReturnVoid =>
    exact ⟨'r', kwReturnVoid.tail, [], rfl, by
      intro t ht
      simp only [List.mem_singleton] at ht
      subst ht
      decide, by decide, by decide⟩
  | Move d s =>
    refine ⟨'m', kwMove.tail, [regTok d ++ [','], regTok s], rfl, ?_,
      by decide, by decide⟩
    intro t ht
    rcases List.mem_cons.mp ht with rfl | ht2
    · decide
    rcases List.mem_cons.mp ht2 with rfl | ht3
    · exact tokSafe_commaTok d
    simp only [List.mem_singleton] at ht3
    subst ht3
    exact tokSafe_regTok s
  | Const d n =>
    refine ⟨'c', kwConst.tail, [regTok d ++ [','], natChars n], rfl, ?_,
      by decide, by decide⟩
    intro t ht
    rcases List.mem_cons.mp ht with rfl | ht2
    · decide
    rcases List.mem_cons.mp ht2 with rfl | ht3
    · exact tokSafe_commaTok d
    simp only [List.mem_singleton] at ht3
    subst ht3
    exact tokSafe_natChars n
  | Goto lb =>
    refine ⟨'g', kwGoto.tail, [':' :: lb], rfl, ?_, by decide, by decide⟩
    intro t ht
    rcases List.mem_cons.mp ht with rfl | ht2
    · decide
    simp only [List.mem_singleton] at ht2
    subst ht2
    exact tokSafe_labelTok lb h
  | LabelDef lb =>
    refine ⟨':', lb, [], rfl, ?_, by decide, by decide⟩
    intro t ht
    simp only [List.mem_singleton] at ht
    subst ht
    exact tokSafe_labelTok lb h

theorem classLines_good (c : SmaliClass) (h : wfClass c = true) :
    ∀ l ∈ classLines c, goodLine l := by
  obtain ⟨hname, hsup, himpl, hfield, hmeth⟩ := wfClass_parts c h
  intro l hl
  rw [classLines] at hl
  rcases List.mem_cons.mp hl with rfl | hl2
  · refine ⟨'.', kwClass.tail, c.modifiers.map modChars ++ [jniTok c.name],
      rfl, ?_, by decide, by decide⟩
    intro t ht
    rcases List.mem_cons.mp ht with rfl | ht2
    · decide
    rcases List.mem_append.mp ht2 with h3 | h3
    · obtain ⟨m, _, rfl⟩ := List.mem_map.mp h3
      exact tokSafe_modChars m
    · simp only [List.mem_singleton] at h3
      subst h3
      exact tokSafe_jniTok _ hname
  rcases List.mem_append.mp hl2 with hl3 | hl3
  rcases List.mem_append.mp hl3 with hl4 | hl4
  rcases List.mem_append.mp hl4 with hl5 | hl5
  · cases hsc : c.super with
    | none => rw [superLines, hsc] at hl5; simp at hl5
    | some s =>
      rw [superLines, hsc] at hl5
      simp only [List.mem_singleton] at hl5
      subst hl5
      refine ⟨'.', kwSuper.tail, [jniTok s], rfl, ?_, by decide, by decide⟩
      intro t ht
      rcases List.mem_cons.mp ht with rfl | ht2
      · decide
      simp only [List.mem_singleton] at ht2
      subst ht2
      exact tokSafe_jniTok s (hsup s hsc)
  · obtain ⟨o, ho, rfl⟩ := List.mem_map.mp hl5
    refine ⟨'.', kwImplements.tail, [jniTok o], rfl, ?_, by decide, by decide⟩
    intro t ht
    rcases List.mem_cons.mp ht with rfl | ht2
    · decide
    simp only [List.mem_singleton] at ht2
    subst ht2
    exact tokSafe_jniTok o (himpl o ho)
  · obtain ⟨f, hf, rfl⟩ := List.mem_map.mp hl4
    have hfp := himpl
    have hfw := hfield f hf
    rw [wfField, Bool.and_eq_true] at hfw
    refine ⟨'.', kwField.tail,
      f.modifiers.map modChars ++ [f.name ++ ':' :: jniChars f.sig], rfl, ?_,
      by decide, by decide⟩
    intro t ht
    rcases List.mem_cons.mp ht with rfl | ht2
    · decide
    rcases List.mem_append.mp ht2 with h3 | h3
    · obtain ⟨m, _, rfl⟩ := List.mem_map.mp h3
      exact tokSafe_modChars m
    · simp only [List.mem_singleton] at h3
      subst h3
      exact tokSafe_fieldNameTok f.name f.sig hfw.1 hfw.2
  · obtain ⟨ml, hml, hlml⟩ := List.mem_flatten.mp hl3
    obtain ⟨m, hm, rfl⟩ := List.mem_map.mp hml
    have hmw := hmeth m hm
    have hmp := hmw
    rw [wfMethod, Bool.and_eq_true, Bool.and_eq_true] at hmp
    rw [methodLines] at hlml
    rcases List.mem_cons.mp hlml with rfl | hm2
    · refine ⟨'.', kwMethod.tail,
        m.modifiers.map modChars ++ [m.name ++ methodSigChars m.sig], rfl, ?_,
        by decide, by decide⟩
      intro t ht
      rcases List.mem_cons.mp ht with rfl | ht2
      · decide
      rcases List.mem_append.mp ht2 with h3 | h3
      · obtain ⟨md, _, rfl⟩ := List.mem_map.mp h3
        exact tokSafe_modChars md
      · simp only [List.mem_singleton] at h3
        subst h3
        exact tokSafe_methodNameTok m.name m.sig hmp.1.1 hmp.1.2
    rcases List.mem_cons.mp hm2 with rfl | hm3
    · refine ⟨'.', kwLocals.tail, [natChars m.locals], rfl, ?_,
        by decide, by decide⟩
      intro t ht
      rcases List.mem_cons.mp ht with rfl | ht2
      · decide
      simp only [List.mem_singleton] at ht2
      subst ht2
      exact tokSafe_natChars m.locals
    rcases List.mem_append.mp hm3 with hm4 | hm4
    · obtain ⟨i, hi, rfl⟩ := List.mem_map.mp hm4
      exact goodLine_instrLine i (List.all_eq_true.mp hmp.2 i hi)
    · simp only [List.mem_singleton] at hm4
      subst hm4
      exact ⟨'.', kwEnd.tail, [kwMethodWord], rfl, by
        intro t ht
        rcases List.mem_cons.mp ht with rfl | ht2
        · decide
        simp only [List.mem_singleton] at ht2
        subst ht2
        decide, by decide, by decide⟩

/-- Round trip of the modelled writer and parser on well-formed classes. -/
theorem from_smali_to_smali (c : SmaliClass) (h : wfClass c = true) :
    from_smali (to_smali c) = Except.ok c := by
  have hgood := classLines_good c h
  have hne : classLines c ≠ [] := by simp [classLines]
  have hlines : linesOfText (textOfLines (classLines c)) = classLines c :=
    linesOfText_textOfLines (classLines c) hne
      (fun l hl => goodLine_noNewline l (hgood l hl))
  have hfilter : (classLines c).filter (fun l => !(isNoiseLine l))
      = classLines c := by
    rw [List.filter_eq_self]
    intro l hl
    simp [goodLine_notNoise l (hgood l hl)]
  unfold from_smali to_smali
  have htl : (String.mk (textOfLines (classLines c))).toList
      = textOfLines (classLines c) := rfl
  rw [htl, hlines, hfilter]
  exact parseClassLines_render c h

theorem parseJniTok_wf (t : List Char) (o : ObjectIdentifier)
    (h : parseJniTok t = some o) : wfIdent o = true := by
  cases t with
  | nil => simp [parseJniTok] at h
  | cons c rest =>
    simp only [parseJniTok] at h
    split_ifs at h with hc
    cases h
    simp only [Bool.and_eq_true] at hc
    exact hc.2

theorem parseFieldTok_wf (t : List Char) (n : List Char) (ty : TypeSignature)
    (h : parseFieldTok t = some (n, ty)) :
    wfFieldName n = true ∧ wfType ty = true := by
  simp only [parseFieldTok] at h
  split at h
  next head tyChars heq =>
    split_ifs at h with hn
    split at h
    next ty2 heq2 =>
      split_ifs at h with hty
      cases h
      exact ⟨hn, hty⟩
    next x heq2 hne => exact Option.noConfusion h
  next heq => exact Option.noConfusion h

theorem parseMethodTok_wf (t : List Char) (n : List Char)
    (sig : MethodSignature) (h : parseMethodTok t = some (n, sig)) :
    wfMethodName n = true ∧ wfMethodSig sig = true := by
  simp only [parseMethodTok] at h
  split_ifs at h with hn
  split at h
  next m heq =>
    split_ifs at h with hsig
    cases h
    exact ⟨hn, hsig⟩
  next heq => exact Option.noConfusion h

theorem parseLabelTok_wf (t : List Char) (lb : List Char)
    (h : parseLabelTok t = some lb) : wfLabel lb = true := by
  cases t with
  | nil => simp [parseLabelTok] at h
  | cons c rest =>
    simp only [parseLabelTok] at h
    split_ifs at h with hc
    cases h
    simp only [Bool.and_eq_true] at hc
    exact hc.2

theorem parseInstrToks_wf (ts : List (List Char)) (i : SmaliInstruction)
    (h : parseInstrToks ts = some i) : wfInstr i = true := by
  match ts with
  | [] => simp [parseInstrToks] at h
  | [t] =>
    simp only [parseInstrToks] at h
    split_ifs at h with hrv
    · cases h; rfl
    · cases hlab : parseLabelTok t with
      | none =>
        rw [hlab] at h
        exact Option.noConfusion h
      | some lb =>
        rw [hlab] at h
        injection h with h2
        rw [← h2]
        exact parseLabelTok_wf t lb hlab
  | [t1, t2] =>
    simp only [parseInstrToks] at h
    split_ifs at h with hg
    cases hlab : parseLabelTok t2 with
    | none =>
      rw [hlab] at h
      exact Option.noConfusion h
    | some lb =>
      rw [hlab] at h
      injection h with h2
      rw [← h2]
      exact parseLabelTok_wf t2 lb hlab
  | [t1, t2, t3] =>
    simp only [parseInstrToks] at h
    split_ifs at h with hm hc
    · split at h
      next t2b heq =>
        split at h
        next d s heq1 heq2 => cases h; rfl
        next x1 x2 hne => exact Option.noConfusion h
      next heq => exact Option.noConfusion h
    · split at h
      next t2b heq =>
        split at h
        next d nn heq1 heq2 => cases h; rfl
        next x1 x2 hne => exact Option.noConfusion h
      next heq => exact Option.noConfusion h
  | t1 :: t2 :: t3 :: t4 :: rest => simp [parseInstrToks] at h

theorem parseInstrLines_wf :
    ∀ (lines : List (List Char)) (is : List SmaliInstruction)
      (r : List (List Char)),
      parseInstrLines lines = some (is, r) → ∀ i ∈ is, wfInstr i = true := by
  intro lines
  induction lines with
  | nil => intro is r h; simp [parseInstrLines] at h
  | cons l rest ih =>
    intro is r h
    simp only [parseInstrLines] at h
    split_ifs at h with hend
    · cases h
      intro i hi
      simp at hi
    · split at h
      next i0 heq =>
        split at h
        next is2 r2 heq2 =>
          cases h
          intro i hi
          rcases List.mem_cons.mp hi with rfl | h3
          · exact parseInstrToks_wf _ i heq
          · exact ih is2 _ heq2 i h3
        next heq2 => exact Option.noConfusion h
      next heq => exact Option.noConfusion h

theorem parseImplsAux_wf :
    ∀ (lines : List (List Char)) (os : List ObjectIdentifier)
      (r : List (List Char)),
      parseImplsAux lines = some (os, r) → ∀ o ∈ os, wfIdent o = true := by
  intro lines
  induction lines with
  | nil =>
    intro os r h
    simp only [parseImplsAux] at h
    cases h
    intro o ho
    simp at ho
  | cons l rest ih =>
    intro os r h
    simp only [parseImplsAux] at h
    split at h
    next t args heq =>
      split_ifs at h with hkw
      · split at h
        · rename_i tok
          split at h
          · rename_i o0 heq3
            split at h
            · rename_i os2 r2 heq4
              cases h
              intro o ho
              rcases List.mem_cons.mp ho with rfl | h3
              · exact parseJniTok_wf tok o heq3
              · exact ih os2 _ heq4 o h3
            · exact Option.noConfusion h
          · exact Option.noConfusion h
        · exact Option.noConfusion h
      · cases h
        intro o ho
        simp at ho
    next heq =>
      cases h
      intro o ho
      simp at ho

theorem parseFieldsAux_wf :
    ∀ (lines : List (List Char)) (fs : List SmaliField)
      (r : List (List Char)),
      parseFieldsAux lines = some (fs, r) → ∀ f ∈ fs, wfField f = true := by
  intro lines
  induction lines with
  | nil =>
    intro fs r h
    simp only [parseFieldsAux] at h
    cases h
    intro f hf
    simp at hf
  | cons l rest ih =>
    intro fs r h
    simp only [parseFieldsAux] at h
    split at h
    next t args heq =>
      split_ifs at h with hkw
      · split at h
        · rename_i ms tok heqmods
          split at h
          · rename_i name ty heq3
            split at h
            · rename_i fs2 r2 heq4
              cases h
              intro f hf
              rcases List.mem_cons.mp hf with rfl | h3
              · have hw := parseFieldTok_wf tok name ty heq3
                rw [wfField]
                simp [hw.1, hw.2]
              · exact ih fs2 _ heq4 f h3
            · exact Option.noConfusion h
          · exact Option.noConfusion h
        · exact Option.noConfusion h
      · cases h
        intro f hf
        simp at hf
    next heq =>
      cases h
      intro f hf
      simp at hf

theorem parseMethodBlock_wf (lines : List (List Char)) (m : SmaliMethod)
    (r : List (List Char)) (h : parseMethodBlock lines = some (m, r)) :
    wfMethod m = true := by
  cases lines with
  | nil => simp [parseMethodBlock] at h
  | cons hl rest =>
    simp only [parseMethodBlock] at h
    split at h
    next t args heq =>
      split_ifs at h with hkw
      split at h
      · rename_i ms tok heqmods
        split at h
        · rename_i name sig heqtok
          split at h
          next ll rest2 =>
            split at h
            · rename_i t2 ntok heqll
              split_ifs at h with hloc
              split at h
              · rename_i nloc heqn
                split at h
                · rename_i is r2 heqis
                  cases h
                  have hts := parseMethodTok_wf tok name sig heqtok
                  have his := parseInstrLines_wf rest2 is _ heqis
                  rw [wfMethod]
                  simp only [Bool.and_eq_true]
                  exact ⟨⟨hts.1, hts.2⟩, List.all_eq_true.mpr his⟩
                · exact Option.noConfusion h
              · exact Option.noConfusion h
            · exact Option.noConfusion h
          next => exact Option.noConfusion h
        · exact Option.noConfusion h
      · exact Option.noConfusion h
    next heq => exact Option.noConfusion h

theorem parseMethodsAux_wf :
    ∀ (fuel : Nat) (lines : List (List Char)) (ms : List SmaliMethod)
      (r : List (List Char)),
      parseMethodsAux fuel lines = some (ms, r) →
      ∀ m ∈ ms, wfMethod m = true := by
  intro fuel
  induction fuel with
  | zero =>
    intro lines ms r h
    cases lines with
    | nil =>
      simp only [parseMethodsAux] at h
      cases h
      intro m hm
      simp at hm
    | cons l rest =>
      simp only [parseMethodsAux] at h
      split_ifs at h with hst
      cases h
      intro m hm
      simp at hm
  | succ f ih =>
    intro lines ms r h
    cases lines with
    | nil =>
      simp only [parseMethodsAux] at h
      cases h
      intro m hm
      simp at hm
    | cons l rest =>
      simp only [parseMethodsAux] at h
      split_ifs at h with hst
      · split at h
        · rename_i m0 r0 heqb
          split at h
          · rename_i ms2 r2 heqrec
            cases h
            intro m hm
            rcases List.mem_cons.mp hm with rfl | h3
            · exact parseMethodBlock_wf (l :: rest) m _ heqb
            · exact ih r0 ms2 _ heqrec m h3
          · exact Option.noConfusion h
        · exact Option.noConfusion h
      · cases h
        intro m hm
        simp at hm

theorem parseSuper_wf (lines : List (List Char))
    (sup : Option ObjectIdentifier) (r : List (List Char))
    (h : parseSuper lines = some (sup, r)) :
    ∀ s, sup = some s → wfIdent s = true := by
  cases lines with
  | nil =>
    simp only [parseSuper] at h
    cases h
    intro s hs
    exact Option.noConfusion hs
  | cons l rest =>
    simp only [parseSuper] at h
    split at h
    next t args heq =>
      split_ifs at h with hkw
      · split at h
        · rename_i tok
          split at h
          · rename_i o0 heqj
            cases h
            intro s hs
            cases hs
            exact parseJniTok_wf tok _ heqj
          · exact Option.noConfusion h
        · exact Option.noConfusion h
      · cases h
        intro s hs
        exact Option.noConfusion hs
    next heq =>
      cases h
      intro s hs
      exact Option.noConfusion hs

theorem parseClassLines_wf (lines : List (List Char)) (c : SmaliClass)
    (h : parseClassLines lines = Except.ok c) : wfClass c = true := by
  cases lines with
  | nil => simp [parseClassLines] at h
  | cons hl rest =>
    simp only [parseClassLines] at h
    split at h
    next t args heq =>
      split_ifs at h with hkw
      split at h
      · rename_i ms tok heqmods
        split at h
        · rename_i name heqname
          split at h
          · rename_i sup rest2 heqsup
            split at h
            · rename_i os rest3 heqimpl
              split at h
              · rename_i fs rest4 heqfields
                split at h
                · rename_i msth heqmeth
                  cases h
                  rw [wfClass]
                  simp only [Bool.and_eq_true]
                  refine ⟨⟨⟨⟨parseJniTok_wf tok name heqname, ?_⟩, ?_⟩, ?_⟩, ?_⟩
                  · cases hsup : sup with
                    | none => rfl
                    | some s => exact parseSuper_wf rest sup rest2 heqsup s hsup
                  · exact List.all_eq_true.mpr (parseImplsAux_wf rest2 os _ heqimpl)
                  · exact List.all_eq_true.mpr (parseFieldsAux_wf rest3 fs _ heqfields)
                  · exact List.all_eq_true.mpr
                      (parseMethodsAux_wf rest4.length rest4 msth _ heqmeth)
                · exact Except.noConfusion h
                · exact Except.noConfusion h
              · exact Except.noConfusion h
            · exact Except.noConfusion h
          · exact Except.noConfusion h
        · exact Except.noConfusion h
      · exact Except.noConfusion h
    next heq => exact Except.noConfusion h

theorem from_smali_wf (s : String) (c : SmaliClass)
    (h : from_smali s = Except.ok c) : wfClass c = true :=
  parseClassLines_wf _ c h

deriving instance DecidableEq for Except

/-- C1: for every `SmaliClass` obtained from a successful parse, rendering
it to smali text and parsing that text again succeeds and yields the same
class: same access flags, superclass, interfaces, fields, methods and
instructions, in the original declaration order (here literal structural
equality of the parsed class value). -/
theorem c1_class_round_trip (s : String) (c : SmaliClass)
    (h : from_smali s = Except.ok c) : from_smali (to_smali c) = Except.ok c :=
  from_smali_to_smali c (from_smali_wf s c h)

/-- C1 witness: the round trip applied to the class parsed from a concrete
single-class source text. -/
theorem c1_class_round_trip_witness :
    from_smali ".class public La;"
        = Except.ok ⟨[Modifier.Public], ⟨['a']⟩, none, [], [], []⟩ ∧
      from_smali (to_smali ⟨[Modifier.Public], ⟨['a']⟩, none, [], [], []⟩)
        = Except.ok ⟨[Modifier.Public], ⟨['a']⟩, none, [], [], []⟩ :=
  ⟨by decide, c1_class_round_trip ".class public La;" _ (by decide)⟩

/-- Modelled from src/lib.rs: the two kinds of nom parse errors that
`parse_fragment` distinguishes — a recoverable `Error` (matched by the
catch-all arm) and a hard `Failure` carrying a message. -/
inductive NomErr where
  | error
  | failure (msg : String)
deriving DecidableEq

/-- Modelled from the spec: `smali_parse::parse_instruction` from the
missing `smali_parse` module (spec section 4.2): it consumes one line (and
the newline after it) and parses the line as a single instruction
(mnemonic with operands, or a label declaration); any other line is a
recoverable parse error. -/
def parse_instruction (s : List Char) :
    Except NomErr (SmaliInstruction × List Char) :=
  match s with
  | [] => Except.error NomErr.error
  | _ :: _ =>
    match parseInstrToks (tokensOfLine (s.takeWhile (fun c => c ≠ '\n'))) with
    | some i =>
      Except.ok (i, s.drop ((s.takeWhile (fun c => c ≠ '\n')).length + 1))
    | none => Except.error NomErr.error

/-- Modelled from the spec: `smali_parse::blank_line` from the missing
`smali_parse` module: it consumes one blank or comment line, failing on
anything else and on empty input (spec section 4.2: blank lines and
comment lines are skippable noise). -/
def blank_line (s : List Char) : Option (List Char) :=
  match s with
  | [] => none
  | _ :: _ =>
    if isNoiseLine (s.takeWhile (fun c => c ≠ '\n'))
    then some (s.drop ((s.takeWhile (fun c => c ≠ '\n')).length + 1))
    else none

/-- Fuel-indexed `many0(blank_line)`. -/
def skipBlanks : Nat → List Char → List Char
  | 0, s => s
  | fuel + 1, s =>
    match blank_line s with
    | some r => skipBlanks fuel r
    | none => s

/-- The `many0(blank_line)` combinator with enough fuel for any input. -/
def skipNoise (s : List Char) : List Char := skipBlanks s.length s

/-- Modelled from src/lib.rs: the
`many_till(terminated(parse_instruction, many0(blank_line)), eof)` loop of
`parse_fragment`: nom's `many_till` first tries `eof`, then applies the
inner parser and recurses. -/
def fragLoop : Nat → List Char → Except NomErr (List SmaliInstruction)
  | _, [] => Except.ok []
  | 0, _ :: _ => Except.error NomErr.error
  | fuel + 1, c :: rest =>
    match parse_instruction (c :: rest) with
    | Except.ok p =>
      match fragLoop fuel (skipNoise p.2) with
      | Except.ok is => Except.ok (p.1 :: is)
      | Except.error e => Except.error e
    | Except.error e => Except.error e

/-- The fragment loop with enough fuel for any input. -/
def fragParse (s : List Char) : Except NomErr (List SmaliInstruction) :=
  fragLoop (s.length + 1) s

/-- Embedding of `parse_fragment` from src/lib.rs: run the nom loop and
translate errors exactly as the `match` in the source does — a
`nom::Err::Failure` becomes "parse error at ..." and every other error
becomes the fixed string "unknown parse error". -/
def parse_fragment (s : String) : Except SmaliError (List SmaliInstruction) :=
  match fragParse s.toList with
  | Except.ok is => Except.ok is
  | Except.error (NomErr.failure e) => Except.error ⟨"parse error at " ++ e⟩
  | Except.error NomErr.error => Except.error ⟨"unknown parse error"⟩

theorem parse_instruction_length (s : List Char) (i : SmaliInstruction)
    (r : List Char) (h : parse_instruction s = Except.ok (i, r)) :
    r.length < s.length := by
  cases s with
  | nil => simp [parse_instruction] at h
  | cons c rest =>
    simp only [parse_instruction] at h
    split at h
    · rename_i i0 heq
      cases h
      rw [List.length_drop]
      simp only [List.length_cons]
      omega
    · exact Except.noConfusion h

theorem blank_line_length (s : List Char) (r : List Char)
    (h : blank_line s = some r) : r.length < s.length := by
  cases s with
  | nil => simp [blank_line] at h
  | cons c rest =>
    simp only [blank_line] at h
    split_ifs at h with hn
    cases h
    rw [List.length_drop]
    simp only [List.length_cons]
    omega

theorem skipBlanks_length :
    ∀ (fuel : Nat) (s : List Char), (skipBlanks fuel s).length ≤ s.length := by
  intro fuel
  induction fuel with
  | zero => intro s; simp [skipBlanks]
  | succ f ih =>
    intro s
    cases hb : blank_line s with
    | none => simp [skipBlanks, hb]
    | some r =>
      have h1 := blank_line_length s r hb
      have h2 := ih r
      have h3 : skipBlanks (f + 1) s = skipBlanks f r := by
        simp [skipBlanks, hb]
      rw [h3]
      omega

theorem skipNoise_length (s : List Char) : (skipNoise s).length ≤ s.length :=
  skipBlanks_length s.length s

theorem fragLoop_fuel :
    ∀ (f1 : Nat) (s : List Char) (f2 : Nat), s.length < f1 → s.length < f2 →
      fragLoop f1 s = fragLoop f2 s := by
  intro f1
  induction f1 with
  | zero => intro s f2 h1; omega
  | succ g1 ih =>
    intro s f2 h1 h2
    cases s with
    | nil =>
      obtain ⟨g2, rfl⟩ : ∃ g2, f2 = g2 + 1 := ⟨f2 - 1, by omega⟩
      rfl
    | cons c rest =>
      obtain ⟨g2, rfl⟩ : ∃ g2, f2 = g2 + 1 := ⟨f2 - 1, by omega⟩
      simp only [List.length_cons] at h1 h2
      cases hpi : parse_instruction (c :: rest) with
      | error e => simp [fragLoop, hpi]
      | ok p =>
        have hlen := parse_instruction_length (c :: rest) p.1 p.2
          (by rw [hpi])
        simp only [List.length_cons] at hlen
        have hsn := skipNoise_length p.2
        have hih := ih (skipNoise p.2) g2 (by omega) (by omega)
        simp [fragLoop, hpi, hih]

/-- C5 (amended): `parse_fragment` succeeds with the empty sequence on
empty input; it fails on any nonempty input whose start is not parsable as
an instruction — including blank-line-only and comment-only input; and
after each parsed instruction the remainder (past skippable blank lines)
is parsed recursively, so trailing unparseable content fails rather than
being silently truncated. -/
theorem c5_fragment_exhaustiveness :
    parse_fragment "" = Except.ok [] ∧
    (∀ s : String, s.toList ≠ [] →
      (∀ p, parse_instruction s.toList ≠ Except.ok p) →
      ∃ e, parse_fragment s = Except.error e) ∧
    (∀ (s : List Char) (i : SmaliInstruction) (r : List Char),
      parse_instruction s = Except.ok (i, r) →
      fragParse s = (fragParse (skipNoise r)).map (List.cons i)) := by
  refine ⟨rfl, ?_, ?_⟩
  · intro s hne hfail
    cases hs : s.toList with
    | nil => exact absurd hs hne
    | cons c rest =>
      have hfrag : ∃ e0, fragParse s.toList = Except.error e0 := by
        rw [hs]
        show ∃ e0, fragLoop ((c :: rest).length + 1) (c :: rest)
          = Except.error e0
        simp only [List.length_cons, fragLoop]
        cases hpi : parse_instruction (c :: rest) with
        | error e => exact ⟨e, rfl⟩
        | ok p =>
          rw [hs] at hfail
          exact absurd hpi (hfail p)
      obtain ⟨e0, he0⟩ := hfrag
      cases e0 with
      | error =>
        exact ⟨⟨"unknown parse error"⟩, by
          unfold parse_fragment
          rw [he0]⟩
      | failure m =>
        exact ⟨⟨"parse error at " ++ m⟩, by
          unfold parse_fragment
          rw [he0]⟩
  · intro s i r h
    cases s with
    | nil => simp [parse_instruction] at h
    | cons c rest =>
      have hlen := parse_instruction_length (c :: rest) i r h
      simp only [List.length_cons] at hlen
      have hsn := skipNoise_length r
      have hfl : fragLoop (rest.length + 1) (skipNoise r)
          = fragParse (skipNoise r) :=
        fragLoop_fuel (rest.length + 1) (skipNoise r)
          ((skipNoise r).length + 1) (by omega) (by omega)
      unfold fragParse
      simp only [List.length_cons, fragLoop, h]
      rw [hfl]
      cases hx : fragParse (skipNoise r) with
      | ok is =>
        rw [show fragLoop ((skipNoise r).length + 1) (skipNoise r)
          = fragParse (skipNoise r) from rfl, hx]
        rfl
      | error e =>
        rw [show fragLoop ((skipNoise r).length + 1) (skipNoise r)
          = fragParse (skipNoise r) from rfl, hx]
        rfl

/-- C5 counterexample: on input consisting of a single blank line the
fragment parser fails, where the claim asserts success with an empty
sequence — nom's `many_till` applies `parse_instruction` before any blank
lines have been consumed. -/
theorem c5_fragment_counterexample :
    parse_fragment (String.mk ['\n'])
      = Except.error ⟨"unknown parse error"⟩ := by decide

/-- C5 witness: the failure clause applied to a one-character garbage
input, and the no-truncation step clause applied to a lone `return-void`
instruction. -/
theorem c5_fragment_witness :
    (∃ e, parse_fragment (String.mk ['%']) = Except.error e) ∧
      fragParse ['r', 'e', 't', 'u', 'r', 'n', '-', 'v', 'o', 'i', 'd']
        = (fragParse
            (skipNoise [])).map (List.cons SmaliInstruction.ReturnVoid) := by
  constructor
  · apply c5_fragment_exhaustiveness.2.1 (String.mk ['%']) (by decide)
    intro p hp
    have : parse_instruction (String.mk ['%']).toList
        = Except.error NomErr.error := by decide
    rw [this] at hp
    exact Except.noConfusion hp
  · exact c5_fragment_exhaustiveness.2.2
      ['r', 'e', 't', 'u', 'r', 'n', '-', 'v', 'o', 'i', 'd']
      SmaliInstruction.ReturnVoid [] (by decide)

/-- C8 (amended): every parse failure of `parse_fragment` is surfaced as a
returned `SmaliError` whose detail string is either the located form
"parse error at ..." (produced only for nom hard failures) or the fixed,
location-free string "unknown parse error" (produced by the catch-all arm
for ordinary errors). -/
theorem c8_error_details (s : String) (e : SmaliError)
    (h : parse_fragment s = Except.error e) :
    e.details = "unknown parse error" ∨
      ∃ m, e.details = "parse error at " ++ m := by
  unfold parse_fragment at h
  cases hf : fragParse s.toList with
  | ok is => rw [hf] at h; exact Except.noConfusion h
  | error e0 =>
    rw [hf] at h
    cases e0 with
    | error =>
      cases h
      exact Or.inl rfl
    | failure m =>
      cases h
      exact Or.inr ⟨m, rfl⟩

/-- C8 counterexample: two failing inputs of different content and
failure position receive the identical detail string "unknown parse
error", which therefore carries no source location or context. -/
theorem c8_error_details_counterexample :
    parse_fragment (String.mk ['%'])
        = Except.error ⟨"unknown parse error"⟩ ∧
      parse_fragment (String.mk ['@', '@', '\n', '@'])
        = Except.error ⟨"unknown parse error"⟩ := by decide

/-- C8 witness: the detail-string characterization applied to a concrete
failing input. -/
theorem c8_error_details_witness :
    ("unknown parse error" = "unknown parse error" ∨
      ∃ m, "unknown parse error" = "parse error at " ++ m) :=
  c8_error_details (String.mk ['%']) ⟨"unknown parse error"⟩ (by decide)

/- Embedding of one directory entry as observed by the `read_dir` loop of
`find_smali_files` (src/lib.rs lines 31-53), mutually with the listing of
a directory.  `entryErr`: the per-entry `Result<DirEntry>` is `Err`, so
the `if let Ok(p)` skips it; `typeErr`: `file_type()` returns `Err`, so
the `if let Ok(f)` skips it; `file`: a plain file with its name (`none`
models a non-UTF-8 name, whose `to_str().unwrap()` panics) and the outcome
`SmaliClass::read_from_file` would produce for it (that function lives in
the missing `types` module, so its result is carried abstractly);
`subdirBad`: a sub-directory whose `read_dir()` fails, so the recursive
call's `unwrap` panics; `subdir`: a readable sub-directory with its
listing. -/
mutual
/-- One directory entry as observed by the loop; see the comment above. -/
inductive DirEntry where
  | entryErr
  | typeErr
  | file (name : Option (List Char)) (parsed : Except SmaliError SmaliClass)
  | subdirBad
  | subdir (listing : DirListing)
inductive DirListing where
  | lnil
  | lcons (e : DirEntry) (rest : DirListing)
end

/-- Sequencing of the walk: a panic (`none`) and an `Err` both stop the
walk, otherwise the accumulated classes flow on. -/
def andThen (a : Option (Except SmaliError (List SmaliClass)))
    (f : List SmaliClass → Option (Except SmaliError (List SmaliClass))) :
    Option (Except SmaliError (List SmaliClass)) :=
  match a with
  | none => none
  | some (Except.error e) => some (Except.error e)
  | some (Except.ok cs) => f cs

/-- The characters of ".smali", the suffix `find_smali_files` matches
file names against. -/
def smaliSuffix : List Char := ['.', 's', 'm', 'a', 'l', 'i']

/-- Embedding of the entry loop of `find_smali_files` (src/lib.rs):
failed entries and failed `file_type()` queries are skipped, directories
are recursed into (a failing `read_dir` panics via `unwrap`, embedded as
`none`), files whose UTF-8 name ends in ".smali" are parsed with errors
propagated by `?`, and all other files are ignored. -/
def walkEntries : DirListing → Option (Except SmaliError (List SmaliClass))
  | DirListing.lnil => some (Except.ok [])
  | DirListing.lcons DirEntry.entryErr rest => walkEntries rest
  | DirListing.lcons DirEntry.typeErr rest => walkEntries rest
  | DirListing.lcons DirEntry.subdirBad _ => none
  | DirListing.lcons (DirEntry.subdir l) rest =>
    andThen (walkEntries l) (fun cs =>
      andThen (walkEntries rest) (fun cs2 => some (Except.ok (cs ++ cs2))))
  | DirListing.lcons (DirEntry.file none _) _ => none
  | DirListing.lcons (DirEntry.file (some n) parsed) rest =>
    if smaliSuffix.isSuffixOf n then
      match parsed with
      | Except.error e => some (Except.error e)
      | Except.ok c =>
        andThen (walkEntries rest) (fun cs => some (Except.ok (c :: cs)))
    else walkEntries rest

/-- Embedding of `find_smali_files` (src/lib.rs line 27): the argument is
the outcome of `read_dir()` on the root (`none`: it failed, so the
`unwrap` panics, embedded as the outer `none`); otherwise the entry loop
runs. -/
def find_smali_files (dir : Option DirListing) :
    Option (Except SmaliError (List SmaliClass)) :=
  match dir with
  | none => none
  | some entries => walkEntries entries

/-- All file names readable and UTF-8, all subdirectories listable: the
precondition under which no panic branch is reachable. -/
def entriesGood : DirListing → Bool
  | DirListing.lnil => true
  | DirListing.lcons DirEntry.entryErr rest => entriesGood rest
  | DirListing.lcons DirEntry.typeErr rest => entriesGood rest
  | DirListing.lcons DirEntry.subdirBad _ => false
  | DirListing.lcons (DirEntry.subdir l) rest =>
    entriesGood l && entriesGood rest
  | DirListing.lcons (DirEntry.file none _) _ => false
  | DirListing.lcons (DirEntry.file (some _) _) rest => entriesGood rest

theorem andThen_none (f : List SmaliClass →
    Option (Except SmaliError (List SmaliClass))) : andThen none f = none := rfl

theorem andThen_err (e : SmaliError) (f : List SmaliClass →
    Option (Except SmaliError (List SmaliClass))) :
    andThen (some (Except.error e)) f = some (Except.error e) := rfl

theorem andThen_ok (cs : List SmaliClass) (f : List SmaliClass →
    Option (Except SmaliError (List SmaliClass))) :
    andThen (some (Except.ok cs)) f = f cs := rfl

theorem walkEntries_good : ∀ (es : DirListing),
    entriesGood es = true → walkEntries es ≠ none
  | DirListing.lnil => fun _ => by simp [walkEntries]
  | DirListing.lcons DirEntry.entryErr rest => fun h => by
      simp only [walkEntries]
      exact walkEntries_good rest (by simpa [entriesGood] using h)
  | DirListing.lcons DirEntry.typeErr rest => fun h => by
      simp only [walkEntries]
      exact walkEntries_good rest (by simpa [entriesGood] using h)
  | DirListing.lcons DirEntry.subdirBad rest => fun h => by
      simp [entriesGood] at h
  | DirListing.lcons (DirEntry.subdir l) rest => fun h => by
      rw [entriesGood, Bool.and_eq_true] at h
      have h1 := walkEntries_good l h.1
      have h2 := walkEntries_good rest h.2
      simp only [walkEntries]
      cases hl : walkEntries l with
      | none => exact absurd hl h1
      | some x =>
        cases x with
        | error e => simp [andThen_err]
        | ok cs =>
          rw [andThen_ok]
          cases hr : walkEntries rest with
          | none => exact absurd hr h2
          | some y =>
            cases y with
            | error e => simp [andThen_err]
            | ok cs2 => simp [andThen_ok]
  | DirListing.lcons (DirEntry.file none parsed) rest => fun h => by
      simp [entriesGood] at h
  | DirListing.lcons (DirEntry.file (some n) parsed) rest => fun h => by
      have h2 := walkEntries_good rest (by simpa [entriesGood] using h)
      simp only [walkEntries]
      split_ifs with hsm
      · cases parsed with
        | error e => simp
        | ok c =>
          cases hr : walkEntries rest with
          | none => exact absurd hr h2
          | some y =>
            cases y with
            | error e => simp [andThen_err]
            | ok cs => simp [andThen_ok]
      · exact h2

/-- Concatenation of directory listings. -/
def lapp : DirListing → DirListing → DirListing
  | DirListing.lnil, l2 => l2
  | DirListing.lcons e rest, l2 => DirListing.lcons e (lapp rest l2)

theorem walkEntries_lapp : ∀ (l1 l2 : DirListing),
    walkEntries (lapp l1 l2)
      = andThen (walkEntries l1) (fun cs =>
          andThen (walkEntries l2) (fun cs2 => some (Except.ok (cs ++ cs2))))
  | DirListing.lnil, l2 => by
      rw [lapp]
      simp only [walkEntries, andThen_ok]
      cases hl : walkEntries l2 with
      | none => rw [andThen_none]
      | some x =>
        cases x with
        | error e => rw [andThen_err]
        | ok cs => rw [andThen_ok]; simp
  | DirListing.lcons DirEntry.entryErr rest, l2 => by
      rw [lapp]
      simp only [walkEntries]
      exact walkEntries_lapp rest l2
  | DirListing.lcons DirEntry.typeErr rest, l2 => by
      rw [lapp]
      simp only [walkEntries]
      exact walkEntries_lapp rest l2
  | DirListing.lcons DirEntry.subdirBad rest, l2 => by
      rw [lapp]
      simp only [walkEntries, andThen_none]
  | DirListing.lcons (DirEntry.subdir l) rest, l2 => by
      rw [lapp]
      simp only [walkEntries, walkEntries_lapp rest l2]
      cases hl : walkEntries l with
      | none => simp [andThen_none]
      | some x =>
        cases x with
        | error e2 => simp [andThen_err]
        | ok cs =>
          simp only [andThen_ok]
          cases hr : walkEntries rest with
          | none => simp [andThen_none]
          | some y =>
            cases y with
            | error e2 => simp [andThen_err]
            | ok cs2 =>
              simp only [andThen_ok]
              cases hl2 : walkEntries l2 with
              | none => simp [andThen_none]
              | some z =>
                cases z with
                | error e2 => simp [andThen_err]
                | ok cs3 => simp [andThen_ok]
  | DirListing.lcons (DirEntry.file none parsed) rest, l2 => by
      rw [lapp]
      simp only [walkEntries]
      rw [andThen_none]
  | DirListing.lcons (DirEntry.file (some n) parsed) rest, l2 => by
      rw [lapp]
      simp only [walkEntries, walkEntries_lapp rest l2]
      split_ifs with hsm
      · cases parsed with
        | error e2 => rfl
        | ok c =>
          cases hr : walkEntries rest with
          | none => simp [andThen_none]
          | some y =>
            cases y with
            | error e2 => simp [andThen_err]
            | ok cs =>
              simp only [andThen_ok]
              cases hl2 : walkEntries l2 with
              | none => simp [andThen_none]
              | some z =>
                cases z with
                | error e2 => simp [andThen_err]
                | ok cs3 => simp [andThen_ok]
      · rfl

/-- C6: For a root directory containing files `A.smali` and `B.smali` and a
subdirectory containing `C.smali` plus one file whose name does not end in
".smali", `find_smali_files` returns exactly the three parsed classes, and
the non-matching file is ignored: whatever parse outcome `junk` it would
have had, it is never consulted and does not appear in the result. -/
theorem c6_directory_discovery (ca cb cc : SmaliClass)
    (junk : Except SmaliError SmaliClass) :
    find_smali_files (some (
      DirListing.lcons (DirEntry.file (some ('A' :: smaliSuffix)) (Except.ok ca))
      (DirListing.lcons (DirEntry.file (some ('B' :: smaliSuffix)) (Except.ok cb))
      (DirListing.lcons (DirEntry.subdir (
        DirListing.lcons (DirEntry.file (some ('C' :: smaliSuffix)) (Except.ok cc))
        (DirListing.lcons
          (DirEntry.file (some ['r', 'e', 'a', 'd', 'm', 'e', '.', 't', 'x', 't']) junk)
          DirListing.lnil)))
        DirListing.lnil)))) = some (Except.ok [ca, cb, cc]) := by
  have hA : smaliSuffix.isSuffixOf ('A' :: smaliSuffix) = true := by decide
  have hB : smaliSuffix.isSuffixOf ('B' :: smaliSuffix) = true := by decide
  have hC : smaliSuffix.isSuffixOf ('C' :: smaliSuffix) = true := by decide
  have hR : smaliSuffix.isSuffixOf
      ['r', 'e', 'a', 'd', 'm', 'e', '.', 't', 'x', 't'] = false := by decide
  simp [find_smali_files, walkEntries, andThen, hA, hB, hC, hR]

/-- C9: a directory entry whose per-entry `Result` is `Err`, or whose
`file_type()` query fails, is silently skipped: the walk over the rest of
the listing proceeds exactly as if the entry were absent, so the call
still returns whatever the remaining entries yield. -/
theorem c9_err_entries_skipped : ∀ (rest : DirListing),
    walkEntries (DirListing.lcons DirEntry.entryErr rest) = walkEntries rest
    ∧ walkEntries (DirListing.lcons DirEntry.typeErr rest) = walkEntries rest
    ∧ find_smali_files (some (DirListing.lcons DirEntry.entryErr rest))
        = find_smali_files (some rest)
    ∧ find_smali_files (some (DirListing.lcons DirEntry.typeErr rest))
        = find_smali_files (some rest) :=
  fun _ => ⟨rfl, rfl, rfl, rfl⟩

/-- C7 (counterexample): a read failure on an individual directory entry
does NOT abort the whole walk.  A listing whose only entry is a failed
`Result<DirEntry>` still produces `Ok` with an empty result list, so the
claimed no-skip/fatal-error policy does not hold. -/
theorem c7_read_failure_counterexample :
    find_smali_files (some (DirListing.lcons DirEntry.entryErr DirListing.lnil))
      = some (Except.ok []) := rfl

/-- C7 (amended): only a parse failure of a matching ".smali" file aborts
the whole walk with that error; a failed per-entry `Result` or a failed
`file_type()` query is skipped and the walk continues on the remaining
entries. -/
theorem c7_read_failure :
    (∀ (e : SmaliError) (n : List Char) (rest : DirListing),
        smaliSuffix.isSuffixOf n = true →
        walkEntries
            (DirListing.lcons (DirEntry.file (some n) (Except.error e)) rest)
          = some (Except.error e))
    ∧ (∀ rest, walkEntries (DirListing.lcons DirEntry.entryErr rest)
        = walkEntries rest)
    ∧ (∀ rest, walkEntries (DirListing.lcons DirEntry.typeErr rest)
        = walkEntries rest) := by
  refine ⟨fun e n rest h => ?_, fun _ => rfl, fun _ => rfl⟩
  simp only [walkEntries, h, if_true]

theorem c7_read_failure_witness :
    walkEntries (DirListing.lcons
        (DirEntry.file (some ('A' :: smaliSuffix)) (Except.error ⟨"boom"⟩))
        DirListing.lnil)
      = some (Except.error ⟨"boom"⟩) :=
  c7_read_failure.1 ⟨"boom"⟩ ('A' :: smaliSuffix) DirListing.lnil (by decide)

/-- C10: `find_smali_files` panics (embedded as `none`) rather than
returning `Err` when `read_dir()` on the root fails, when a file name is
not valid UTF-8, or when `read_dir()` on a sub-directory fails; and under
the precondition `entriesGood` (root readable, every name UTF-8, every
sub-directory listable) no panic is reachable. -/
theorem c10_panics :
    find_smali_files none = none
    ∧ (∀ (parsed : Except SmaliError SmaliClass) (rest : DirListing),
        walkEntries (DirListing.lcons (DirEntry.file none parsed) rest) = none)
    ∧ (∀ rest : DirListing,
        walkEntries (DirListing.lcons DirEntry.subdirBad rest) = none)
    ∧ (∀ es : DirListing, entriesGood es = true →
        find_smali_files (some es) ≠ none) :=
  ⟨rfl, fun _ _ => rfl, fun _ => rfl,
    fun es h => walkEntries_good es h⟩

theorem c10_panics_witness :
    entriesGood (DirListing.lcons DirEntry.entryErr DirListing.lnil) = true
    ∧ find_smali_files
        (some (DirListing.lcons DirEntry.entryErr DirListing.lnil)) ≠ none :=
  ⟨by decide,
    c10_panics.2.2.2 (DirListing.lcons DirEntry.entryErr DirListing.lnil)
      (by decide)⟩
